import Mathlib

/-
Verification of the bitbuffer codec and the PER encoder of thebagchi/asn1c-go.

The development shallowly embeds the Go sources:
  * package bitbuffer (Codec with Write / Read / WriteBytes / Align / Bytes),
  * package per, later variant (lib/per/encode.go): width utilities,
    constrained / semi-constrained / unconstrained whole numbers, length
    determinants, normally small numbers, REAL, BIT STRING and OCTET STRING,
  * package per, earlier variant (embedded in lib/per/decode.go).

Go integers are modelled by Nat (uint64 / uint8) and Int (int64); wrapping
conversions carry an explicit reduction.  Byte slices are lists of Nat that
are kept below 256 by the operations themselves or by explicit hypotheses.
Errors are modelled by Option String (for the mutating codec operations,
which in Go leave their partial effects behind) and by Except String for
the encoder routines.
-/

set_option maxHeartbeats 1000000

namespace Asn1cGo

/-- natToBits n v is the n-bit MSB-first bit string of the low n bits of v. -/
def natToBits : Nat → Nat → List Bool
  | 0, _ => []
  | n + 1, v => v.testBit n :: natToBits n v

/-- bitsToNat folds an MSB-first bit string back into the number it denotes. -/
def bitsToNat (bs : List Bool) : Nat := bs.foldl (fun a b => 2 * a + cond b 1 0) 0

theorem natToBits_length (n v : Nat) : (natToBits n v).length = n := by
  induction n generalizing v with
  | zero => rfl
  | succ n ih => simp [natToBits, ih]

theorem natToBits_mod (n v : Nat) : natToBits n (v % 2 ^ n) = natToBits n v := by
  induction n generalizing v with
  | zero => rfl
  | succ n ih =>
    have h1 : v % 2 ^ (n + 1) % 2 ^ n = v % 2 ^ n :=
      Nat.mod_mod_of_dvd _ (pow_dvd_pow 2 (Nat.le_succ n))
    rw [natToBits, natToBits, Nat.testBit_mod_two_pow]
    congr 1
    · simp
    · rw [← ih (v % 2 ^ (n + 1)), h1, ih]

theorem bitsToNat_nil : bitsToNat [] = 0 := rfl

theorem bitsToNat_foldl (a : Nat) (bs : List Bool) :
    bs.foldl (fun a b => 2 * a + cond b 1 0) a = a * 2 ^ bs.length + bitsToNat bs := by
  induction bs generalizing a with
  | nil => simp [bitsToNat]
  | cons b t ih =>
    show List.foldl _ (2 * a + cond b 1 0) t = _
    have hb : bitsToNat (b :: t) =
        List.foldl (fun a b => 2 * a + cond b 1 0) (2 * 0 + cond b 1 0) t := rfl
    rw [ih, hb, ih]
    simp only [List.length_cons, pow_succ]
    ring

theorem bitsToNat_append (xs ys : List Bool) :
    bitsToNat (xs ++ ys) = bitsToNat xs * 2 ^ ys.length + bitsToNat ys := by
  simp only [bitsToNat, List.foldl_append]
  exact bitsToNat_foldl _ ys

theorem bitsToNat_cons (b : Bool) (t : List Bool) :
    bitsToNat (b :: t) = cond b 1 0 * 2 ^ t.length + bitsToNat t := by
  have := bitsToNat_append [b] t
  simpa [bitsToNat] using this

theorem bitsToNat_natToBits (n v : Nat) : bitsToNat (natToBits n v) = v % 2 ^ n := by
  induction n generalizing v with
  | zero => simp [natToBits, bitsToNat, Nat.mod_one]
  | succ n ih =>
    rw [natToBits, bitsToNat_cons, natToBits_length, ih]
    have hsplit : v % 2 ^ (n + 1) = v % 2 ^ n + 2 ^ n * (v / 2 ^ n % 2) := by
      rw [pow_succ, Nat.mod_mul]
    have hb : v.testBit n = decide (v / 2 ^ n % 2 = 1) := Nat.testBit_to_div_mod
    rcases Nat.mod_two_eq_zero_or_one (v / 2 ^ n) with h | h
    · simp [hb, h, hsplit]
    · simp [hb, h, hsplit]
      omega

theorem bitsToNat_lt (bs : List Bool) : bitsToNat bs < 2 ^ bs.length := by
  induction bs with
  | nil => simp [bitsToNat]
  | cons b t ih =>
    rw [bitsToNat_cons]
    have h1 : cond b 1 0 ≤ 1 := by cases b <;> simp
    have h2 : cond b 1 0 * 2 ^ t.length ≤ 2 ^ t.length :=
      calc cond b 1 0 * 2 ^ t.length ≤ 1 * 2 ^ t.length := Nat.mul_le_mul_right _ h1
        _ = 2 ^ t.length := one_mul _
    simp only [List.length_cons, pow_succ]
    omega

theorem natToBits_split (a b v : Nat) :
    natToBits (a + b) v = natToBits a (v >>> b) ++ natToBits b v := by
  induction a with
  | zero => simp [natToBits]
  | succ a ih =>
    have h1 : a + 1 + b = (a + b) + 1 := by omega
    rw [h1, natToBits, ih, natToBits, List.cons_append]
    have hh : v.testBit (a + b) = (v >>> b).testBit a := by
      rw [Nat.testBit_shiftRight]
      congr 1
      omega
    rw [hh]

theorem natToBits_zero (n : Nat) : natToBits n 0 = List.replicate n false := by
  induction n with
  | zero => rfl
  | succ n ih =>
    rw [natToBits, ih, Nat.zero_testBit, List.replicate_succ]

theorem natToBits_mul_pow (n p v : Nat) :
    natToBits (n + p) (v * 2 ^ p) = natToBits n v ++ List.replicate p false := by
  rw [natToBits_split]
  congr 1
  · congr 1
    rw [Nat.shiftRight_eq_div_pow]
    exact Nat.mul_div_cancel v (by positivity)
  · rw [← natToBits_mod, Nat.mul_mod_left, natToBits_zero]

theorem natToBits_take (m n v : Nat) (h : m ≤ n) :
    (natToBits n v).take m = natToBits m (v >>> (n - m)) := by
  obtain ⟨k, rfl⟩ : ∃ k, n = m + k := ⟨n - m, by omega⟩
  rw [natToBits_split, Nat.add_sub_cancel_left]
  exact List.take_left' (natToBits_length _ _)

theorem natToBits_drop (m n v : Nat) (h : m ≤ n) :
    (natToBits n v).drop m = natToBits (n - m) v := by
  obtain ⟨k, rfl⟩ : ∃ k, n = m + k := ⟨n - m, by omega⟩
  rw [natToBits_split, Nat.add_sub_cancel_left]
  exact List.drop_left' (natToBits_length _ _)

theorem natToBits_bitsToNat (t : List Bool) : natToBits t.length (bitsToNat t) = t := by
  induction t with
  | nil => rfl
  | cons b r ih =>
    rw [List.length_cons, natToBits, bitsToNat_cons]
    have hr : bitsToNat r < 2 ^ r.length := bitsToNat_lt r
    have hdiv : (cond b 1 0 * 2 ^ r.length + bitsToNat r) / 2 ^ r.length = cond b 1 0 := by
      rw [Nat.mul_comm, Nat.mul_add_div (by positivity : (0:Nat) < 2 ^ r.length),
        Nat.div_eq_of_lt hr]
      simp
    have hb : (cond b 1 0 * 2 ^ r.length + bitsToNat r).testBit r.length = b := by
      have ht := Nat.testBit_to_div_mod
        (x := cond b 1 0 * 2 ^ r.length + bitsToNat r) (i := r.length)
      rw [ht, hdiv]
      cases b <;> simp
    rw [hb]
    congr 1
    rw [← natToBits_mod, Nat.add_comm, Nat.add_mul_mod_self_right, Nat.mod_eq_of_lt hr, ih]

/-- Disjoint-range bitwise or is addition: the low k bits of the left operand
    are clear and the right operand fits in k bits. -/
theorem lor_mul_pow_add (a b k : Nat) (hb : b < 2 ^ k) : a * 2 ^ k ||| b = a * 2 ^ k + b := by
  refine Nat.eq_of_testBit_eq fun i => ?_
  rw [Nat.testBit_lor]
  rcases Nat.lt_or_ge i k with hik | hik
  · obtain ⟨d, rfl⟩ : ∃ d, k = d + 1 + i := ⟨k - i - 1, by omega⟩
    have heven : a * 2 ^ (d + 1) % 2 = 0 := by
      rw [pow_succ, ← Nat.mul_assoc]
      simp [Nat.mul_mod_left]
    have hmul : a * 2 ^ (d + 1 + i) = a * 2 ^ (d + 1) * 2 ^ i := by
      rw [Nat.mul_assoc, ← pow_add]
    have hlow : (a * 2 ^ (d + 1 + i)).testBit i = false := by
      rw [Nat.testBit_to_div_mod, hmul,
        Nat.mul_div_cancel _ (by positivity : (0:Nat) < 2 ^ i)]
      simp [heven]
    have hsum : (a * 2 ^ (d + 1 + i) + b).testBit i = b.testBit i := by
      rw [Nat.testBit_to_div_mod, Nat.testBit_to_div_mod, hmul, Nat.add_comm,
        Nat.add_mul_div_right _ _ (by positivity : (0:Nat) < 2 ^ i)]
      have : (b / 2 ^ i + a * 2 ^ (d + 1)) % 2 = b / 2 ^ i % 2 := by omega
      rw [this]
    rw [hlow, hsum, Bool.false_or]
  · obtain ⟨d, rfl⟩ : ∃ d, i = d + k := ⟨i - k, by omega⟩
    have hhigh : b.testBit (d + k) = false :=
      Nat.testBit_eq_false_of_lt
        (lt_of_lt_of_le hb (Nat.pow_le_pow_right (by norm_num) (by omega)))
    have hpow : (2 : Nat) ^ (d + k) = 2 ^ k * 2 ^ d := by
      rw [← pow_add, Nat.add_comm]
    have hsum : (a * 2 ^ k + b).testBit (d + k) = (a * 2 ^ k).testBit (d + k) := by
      rw [Nat.testBit_to_div_mod, Nat.testBit_to_div_mod, hpow,
        ← Nat.div_div_eq_div_mul, ← Nat.div_div_eq_div_mul, Nat.add_comm,
        Nat.add_mul_div_right _ _ (by positivity : (0:Nat) < 2 ^ k),
        Nat.div_eq_of_lt hb, Nat.mul_div_cancel _ (by positivity : (0:Nat) < 2 ^ k)]
      simp
    rw [hhigh, hsum, Bool.or_false]

/-- byteBits b is the MSB-first bit string of one octet. -/
def byteBits (b : Nat) : List Bool := natToBits 8 b

/-- streamBits lists the bits of a byte buffer, MSB-first within each octet. -/
def streamBits (B : List Nat) : List Bool := (B.map byteBits).flatten

theorem streamBits_nil : streamBits [] = [] := rfl

theorem streamBits_cons (b : Nat) (r : List Nat) :
    streamBits (b :: r) = byteBits b ++ streamBits r := rfl

theorem streamBits_append (x y : List Nat) :
    streamBits (x ++ y) = streamBits x ++ streamBits y := by
  simp [streamBits]

theorem streamBits_length (B : List Nat) : (streamBits B).length = 8 * B.length := by
  induction B with
  | nil => rfl
  | cons b r ih =>
    rw [streamBits_cons, List.length_append, ih, byteBits, natToBits_length,
      List.length_cons]
    ring

theorem streamBits_drop_bytes (B : List Nat) (j : Nat) :
    (streamBits B).drop (8 * j) = streamBits (B.drop j) := by
  induction j generalizing B with
  | zero => simp
  | succ j ih =>
    cases B with
    | nil => simp [streamBits_nil]
    | cons b r =>
      rw [streamBits_cons, show 8 * (j + 1) = 8 + 8 * j by ring, ← List.drop_drop,
        List.drop_left' (by rw [byteBits, natToBits_length]), ih, List.drop_succ_cons]

/-- bitsToBytes packs an MSB-first bit string into octets; a trailing partial
    chunk occupies the most significant bits of its final octet. -/
def bitsToBytes : List Bool → List Nat
  | [] => []
  | b0 :: b1 :: b2 :: b3 :: b4 :: b5 :: b6 :: b7 :: rest =>
    bitsToNat [b0, b1, b2, b3, b4, b5, b6, b7] :: bitsToBytes rest
  | bs => [bitsToNat bs * 2 ^ (8 - bs.length)]

theorem bitsToBytes_nil : bitsToBytes [] = [] := rfl

theorem bitsToBytes_eq (bs : List Bool) (h : bs ≠ []) :
    bitsToBytes bs =
      bitsToNat (bs.take 8) * 2 ^ (8 - min 8 bs.length) :: bitsToBytes (bs.drop 8) := by
  match bs with
  | [b0] => simp [bitsToBytes, bitsToBytes_nil]
  | [b0, b1] => simp [bitsToBytes, bitsToBytes_nil]
  | [b0, b1, b2] => simp [bitsToBytes, bitsToBytes_nil]
  | [b0, b1, b2, b3] => simp [bitsToBytes, bitsToBytes_nil]
  | [b0, b1, b2, b3, b4] => simp [bitsToBytes, bitsToBytes_nil]
  | [b0, b1, b2, b3, b4, b5] => simp [bitsToBytes, bitsToBytes_nil]
  | [b0, b1, b2, b3, b4, b5, b6] => simp [bitsToBytes, bitsToBytes_nil]
  | b0 :: b1 :: b2 :: b3 :: b4 :: b5 :: b6 :: b7 :: rest =>
    have hmin : min 8 (b0 :: b1 :: b2 :: b3 :: b4 :: b5 :: b6 :: b7 :: rest).length = 8 := by
      simp
    simp [bitsToBytes, hmin]

theorem bitsToBytes_small (bs : List Bool) (h0 : bs ≠ []) (h8 : bs.length ≤ 8) :
    bitsToBytes bs = [bitsToNat bs * 2 ^ (8 - bs.length)] := by
  rw [bitsToBytes_eq bs h0, List.take_of_length_le h8, List.drop_of_length_le h8,
    bitsToBytes_nil, Nat.min_eq_right h8]

theorem bitsToBytes_append_full (bs t : List Bool) (h : bs.length % 8 = 0) :
    bitsToBytes (bs ++ t) = bitsToBytes bs ++ bitsToBytes t := by
  generalize hn : bs.length = n
  induction n using Nat.strong_induction_on generalizing bs t with
  | _ n ih =>
    cases bs with
    | nil => simp [bitsToBytes_nil]
    | cons b r =>
      have hlen : (b :: r).length = n := hn
      have h8 : 8 ≤ (b :: r).length := by
        have hpos : 0 < (b :: r).length := by simp
        omega
      rw [bitsToBytes_eq _ (by simp), bitsToBytes_eq (b :: r) (by simp)]
      have ht : ((b :: r) ++ t).take 8 = (b :: r).take 8 :=
        List.take_append_of_le_length h8
      have hd : ((b :: r) ++ t).drop 8 = (b :: r).drop 8 ++ t :=
        List.drop_append_of_le_length h8
      rw [ht, hd]
      have hmin1 : min 8 ((b :: r) ++ t).length = 8 :=
        Nat.min_eq_left (by simp only [List.length_append]; omega)
      have hmin2 : min 8 (b :: r).length = 8 := Nat.min_eq_left h8
      rw [hmin1, hmin2, List.cons_append]
      congr 1
      have hpos : 0 < n := by
        rw [← hlen]
        simp
      exact ih (n - 8) (by omega) _ t (by rw [List.length_drop, hlen]; omega)
        (by rw [List.length_drop, hlen])

theorem bitsToNat_replicate_false (p : Nat) : bitsToNat (List.replicate p false) = 0 := by
  have := bitsToNat_natToBits p 0
  rw [natToBits_zero] at this
  simpa using this

/-- padLen bs counts the zero bits an aligner appends after bs. -/
def padLen (bs : List Bool) : Nat := (8 - bs.length % 8) % 8

/-- alignBits bs is bs padded with zero bits up to the next octet boundary. -/
def alignBits (bs : List Bool) : List Bool := bs ++ List.replicate (padLen bs) false

theorem alignBits_length (bs : List Bool) :
    (alignBits bs).length = bs.length + padLen bs := by
  simp [alignBits]

theorem alignBits_length_mod (bs : List Bool) : (alignBits bs).length % 8 = 0 := by
  rw [alignBits_length, padLen]
  omega

theorem alignBits_of_mod (bs : List Bool) (h : bs.length % 8 = 0) : alignBits bs = bs := by
  rw [alignBits, padLen, h]
  simp

theorem bitsToBytes_alignBits (bs : List Bool) : bitsToBytes (alignBits bs) = bitsToBytes bs := by
  rcases Nat.eq_zero_or_pos (bs.length % 8) with h | h
  · rw [alignBits_of_mod bs h]
  · have hr : bs.length % 8 < 8 := Nat.mod_lt _ (by norm_num)
    have hsplit : bs = bs.take (bs.length - bs.length % 8) ++ bs.drop (bs.length - bs.length % 8) :=
      (List.take_append_drop _ bs).symm
    set m := bs.length - bs.length % 8 with hm
    have hlen1 : (bs.take m).length = m := by
      rw [List.length_take]
      omega
    have hmod1 : (bs.take m).length % 8 = 0 := by
      rw [hlen1, hm]
      omega
    have hlen2 : (bs.drop m).length = bs.length % 8 := by
      rw [List.length_drop]
      omega
    have hne2 : bs.drop m ≠ [] := by
      intro hc
      rw [← List.length_eq_zero] at *
      omega
    obtain ⟨p, hp⟩ : ∃ p, padLen bs = p := ⟨_, rfl⟩
    have hpl : p = 8 - bs.length % 8 := by
      rw [← hp, padLen]
      omega
    rw [alignBits, hp]
    rw [hsplit, List.append_assoc]
    rw [bitsToBytes_append_full _ _ hmod1, bitsToBytes_append_full _ _ hmod1]
    congr 1
    have hlen3 : (bs.drop m ++ List.replicate p false).length = 8 := by
      rw [List.length_append, hlen2, List.length_replicate, hpl]
      omega
    rw [bitsToBytes_small _ (by simp [hne2]) (le_of_eq hlen3),
      bitsToBytes_small _ hne2 (by rw [hlen2]; omega), hlen3, hlen2]
    rw [bitsToNat_append, bitsToNat_replicate_false, List.length_replicate, hpl]
    simp

theorem bitsToBytes_length (bs : List Bool) :
    (bitsToBytes bs).length = (bs.length + 7) / 8 := by
  generalize hn : bs.length = n
  induction n using Nat.strong_induction_on generalizing bs with
  | _ n ih =>
    cases bs with
    | nil => simp [bitsToBytes_nil, ← hn]
    | cons b r =>
      have hpos : 0 < n := by
        rw [← hn]
        simp
      rw [bitsToBytes_eq _ (by simp), List.length_cons]
      rw [ih ((b :: r).drop 8).length (by rw [List.length_drop, hn]; omega) _ rfl]
      rw [List.length_drop, hn]
      omega

theorem bitsToBytes_lt (bs : List Bool) : ∀ x ∈ bitsToBytes bs, x < 256 := by
  generalize hn : bs.length = n
  induction n using Nat.strong_induction_on generalizing bs with
  | _ n ih =>
    cases bs with
    | nil => simp [bitsToBytes_nil]
    | cons b r =>
      rw [bitsToBytes_eq _ (by simp)]
      intro x hx
      rcases List.mem_cons.1 hx with rfl | hmem
      · have h1 : bitsToNat ((b :: r).take 8) < 2 ^ (min 8 (b :: r).length) := by
          have := bitsToNat_lt ((b :: r).take 8)
          rwa [List.length_take] at this
        have h2 : bitsToNat ((b :: r).take 8) * 2 ^ (8 - min 8 (b :: r).length) <
            2 ^ (min 8 (b :: r).length) * 2 ^ (8 - min 8 (b :: r).length) := by
          have hpos2 : 0 < 2 ^ (8 - min 8 (b :: r).length) := by positivity
          exact (Nat.mul_lt_mul_right hpos2).mpr h1
        calc bitsToNat ((b :: r).take 8) * 2 ^ (8 - min 8 (b :: r).length)
            < 2 ^ (min 8 (b :: r).length) * 2 ^ (8 - min 8 (b :: r).length) := h2
          _ = 2 ^ 8 := by
              rw [← pow_add]
              congr 1
              have : min 8 (b :: r).length ≤ 8 := Nat.min_le_left _ _
              omega
          _ = 256 := by norm_num
      · have hpos : 0 < n := by
          rw [← hn]
          simp
        exact ih ((b :: r).drop 8).length (by rw [List.length_drop, hn]; omega) _ rfl x hmem

theorem streamBits_bitsToBytes_full (bs : List Bool) (h : bs.length % 8 = 0) :
    streamBits (bitsToBytes bs) = bs := by
  generalize hn : bs.length = n
  induction n using Nat.strong_induction_on generalizing bs with
  | _ n ih =>
    cases bs with
    | nil => simp [bitsToBytes_nil, streamBits_nil]
    | cons b r =>
      have h8 : 8 ≤ (b :: r).length := by
        have hpos : 0 < (b :: r).length := by simp
        omega
      rw [bitsToBytes_eq _ (by simp), streamBits_cons]
      have hmin : min 8 (b :: r).length = 8 := Nat.min_eq_left h8
      rw [hmin, Nat.sub_self, pow_zero, Nat.mul_one]
      have htk : ((b :: r).take 8).length = 8 := by
        rw [List.length_take, hmin]
      have hbb : byteBits (bitsToNat ((b :: r).take 8)) = (b :: r).take 8 := by
        have h9 := natToBits_bitsToNat ((b :: r).take 8)
        rw [htk] at h9
        rw [byteBits]
        exact h9
      have hpos : 0 < n := by
        rw [← hn]
        simp
      rw [hbb, ih ((b :: r).drop 8).length (by rw [List.length_drop, hn]; omega) _
        (by rw [List.length_drop]; omega) rfl]
      exact List.take_append_drop 8 (b :: r)

theorem streamBits_bitsToBytes (bs : List Bool) :
    streamBits (bitsToBytes bs) = alignBits bs := by
  rw [← bitsToBytes_alignBits, streamBits_bitsToBytes_full _ (alignBits_length_mod bs)]

/-- Codec mirrors bitbuffer.Codec: the byte buffer, the within-byte bit offset
    (0 through 8, 8 marking a just-filled or pending-advance byte) and the two
    bit counters. -/
structure Codec where
  buff : List Nat
  offset : Nat
  written : Nat
  read : Nat
  deriving DecidableEq, Repr

deriving instance DecidableEq for Except

/-- CreateWriter mirrors bitbuffer.CreateWriter (the capacity hint of the Go
    implementation has no observable effect). -/
def CreateWriter : Codec := { buff := [], offset := 0, written := 0, read := 0 }

/-- CreateReader mirrors bitbuffer.CreateReader. -/
def CreateReader (data : List Nat) : Codec :=
  { buff := data, offset := 0, written := 0, read := 0 }

/-- Len mirrors Codec.Len. -/
def Codec.Len (c : Codec) : Nat := c.buff.length

/-- NumWritten mirrors Codec.NumWritten. -/
def Codec.NumWritten (c : Codec) : Nat := c.written

/-- NumRead mirrors Codec.NumRead. -/
def Codec.NumRead (c : Codec) : Nat := c.read

/-- Bytes mirrors Codec.Bytes (nil is the empty list). -/
def Codec.Bytes (c : Codec) : List Nat := if c.written = 0 then [] else c.buff

/-- writeLoop is the slow-path loop of Codec.Write, packing the pending low
    bits of value into the buffer starting at the current offset.  Each Go
    iteration packs at least one bit, so fuel equal to the initial pending
    count makes the recursion structural; the fuel-exhaustion branch is
    unreachable from Write. -/
def writeLoop : Nat → List Nat → Nat → Nat → Nat → List Nat × Nat
  | 0, buff, offset, _, _ => (buff, offset)
  | fuel + 1, buff, offset, pending, value =>
    if pending = 0 then (buff, offset)
    else
      let buff0 := if offset = 8 ∨ buff = [] then buff ++ [0] else buff
      let offset0 := if offset = 8 ∨ buff = [] then 0 else offset
      let available := 8 - offset0
      let nbits := min pending available
      let remaining := pending - nbits
      let chunk := (value >>> remaining) % 256 &&& ((1 <<< nbits) - 1)
      let shift := available - nbits
      let pos := buff0.length - 1
      let buff1 := buff0.set pos (buff0.getD pos 0 ||| chunk <<< shift)
      writeLoop fuel buff1 (offset0 + nbits) remaining value

/-- Write mirrors Codec.Write; the Go method mutates the receiver and returns
    an error value, modelled as an Option String paired with the new state. -/
def Codec.Write (c : Codec) (num : Nat) (value : Nat) : Option String × Codec :=
  if num = 0 ∨ num > 64 then (some "bit count must be between 1 and 64", c)
  else
    let value := value &&& ((1 <<< num) - 1)
    if c.buff = [] ∨ c.offset = 8 then
      -- fast byte-aligned path; the Go reset of offset to 0 is overwritten below
      let nbytes := (num + 7) >>> 3
      let remainder := num &&& 7
      let tmp := (List.range 8).map fun i => (value <<< (64 - num)) >>> (8 * (7 - i)) % 256
      let offset := if remainder = 0 then 8 else remainder
      (none, { c with buff := c.buff ++ tmp.take nbytes, offset := offset,
                      written := c.written + num })
    else
      let r := writeLoop num c.buff c.offset num value
      (none, { c with buff := r.1, offset := r.2, written := c.written + num })

/-- Align mirrors Codec.Align; the Go method always returns a nil error. -/
def Codec.Align (c : Codec) : Codec :=
  if 0 < c.offset ∧ c.offset < 8 then
    { c with written := c.written + (8 - c.offset), offset := 8 }
  else c

/-- writeBytesLoop is the slow path of WriteBytes: pack each byte via Write. -/
def writeBytesLoop (c : Codec) (data : List Nat) : Option String × Codec :=
  match data with
  | [] => (none, c)
  | b :: rest =>
    match c.Write 8 b with
    | (some e, c1) => (some e, c1)
    | (none, c1) => writeBytesLoop c1 rest

/-- WriteBytes mirrors Codec.WriteBytes. -/
def Codec.WriteBytes (c : Codec) (data : List Nat) : Option String × Codec :=
  if data = [] then (none, c)
  else if c.buff = [] ∨ c.offset = 8 then
    (none, { c with buff := c.buff ++ data, written := c.written + data.length * 8,
                    offset := 8 })
  else writeBytesLoop c data

/-- beVal interprets a byte list as a big-endian number; on an 8-byte list it
    is binary.BigEndian.Uint64. -/
def beVal (B : List Nat) : Nat := B.foldl (fun a b => a * 256 + b) 0

/-- readLoop is the slow-path loop of Codec.Read.  Each Go iteration reads at
    least one bit, so fuel equal to the initial pending count makes the
    recursion structural; the fuel-exhaustion branch is unreachable from Read.
    The quadruple carries (error, result, buffer, offset): Go keeps the partial
    buffer and offset mutations when the loop fails mid-read. -/
def readLoop : Nat → List Nat → Nat → Nat → Nat → Option String × Nat × List Nat × Nat
  | 0, buff, offset, _, acc => (none, acc, buff, offset)
  | fuel + 1, buff, offset, pending, acc =>
    if pending = 0 then (none, acc, buff, offset)
    else
      let buff0 := if offset = 8 then buff.drop 1 else buff
      let offset0 := if offset = 8 then 0 else offset
      if offset = 8 ∧ buff0 = [] then (some "unexpected end of data", 0, buff0, offset0)
      else
        let remaining := 8 - offset0
        let reading := min pending remaining
        let mask := (1 <<< reading) - 1
        let shift := remaining - reading
        let bits := buff0.headD 0 >>> shift &&& mask
        readLoop fuel buff0 (offset0 + reading) (pending - reading) (acc <<< reading ||| bits)

/-- Read mirrors Codec.Read; num at least 1 makes nbytes positive, so the dead
    Go fall-through from the aligned branch to the slow loop is omitted. -/
def Codec.Read (c : Codec) (num : Nat) : Except String Nat × Codec :=
  if num = 0 then (Except.ok 0, c)
  else if num > 64 then (Except.error "bit count must be between 1 and 64", c)
  else if c.Len = 0 then (Except.error "no more data", c)
  else if c.buff = [] ∨ c.offset = 8 then
    -- byte-aligned fast path with lazy advancement past the sentinel byte
    if c.offset = 8 ∧ c.buff = [] then (Except.error "unexpected end of data", c)
    else
      let buff0 := if c.offset = 8 then c.buff.drop 1 else c.buff
      let offset0 := if c.offset = 8 then 0 else c.offset
      if c.offset = 8 ∧ buff0 = [] then
        (Except.error "unexpected end of data", { c with buff := buff0, offset := offset0 })
      else
        let nbytes := (num + 7) >>> 3
        if buff0.length < nbytes then
          (Except.error "insufficient data", { c with buff := buff0, offset := offset0 })
        else
          let tmp := buff0.take nbytes ++ List.replicate (8 - nbytes) 0
          let result := beVal tmp >>> (64 - num)
          let remainder := num % 8
          let offset1 := if remainder = 0 then 8 else remainder
          (Except.ok result, { c with buff := buff0.drop (nbytes - 1), offset := offset1,
                                      read := c.read + num })
  else
    match readLoop num c.buff c.offset num 0 with
    | (some e, _, b, o) => (Except.error e, { c with buff := b, offset := o })
    | (none, result, b, o) =>
      (Except.ok result, { c with buff := b, offset := o, read := c.read + num })

example :
    let s0 := CreateWriter
    let s1 := (List.range 16).foldl (fun s _ => (Codec.Write s 1 0).2) s0
    let s2 := (s1.WriteBytes [0]).2
    let s3 := s2.Align
    let s4 := (s3.Write 1 1).2
    s4.Bytes = [0, 0, 0, 0x80] ∧ s4.NumWritten = 25 ∧ s4.offset = 1 := by decide

example :
    let w := (((CreateWriter.Write 3 5).2.Write 7 65).2.Write 11 1025).2
    let r0 := CreateReader w.Bytes
    let r1 := r0.Read 3
    let r2 := r1.2.Read 7
    let r3 := r2.2.Read 11
    r1.1 = Except.ok 5 ∧ r2.1 = Except.ok 65 ∧ r3.1 = Except.ok 1025 ∧
      r3.2.NumRead = 21 := by decide

/-- offsetOfBits is the canonical writer offset after writing bs. -/
def offsetOfBits (bs : List Bool) : Nat :=
  if bs.length = 0 then 0 else if bs.length % 8 = 0 then 8 else bs.length % 8

/-- writerOfBits is the canonical writer state reached from CreateWriter by
    writing exactly the bit string bs. -/
def writerOfBits (bs : List Bool) : Codec :=
  { buff := bitsToBytes bs, offset := offsetOfBits bs, written := bs.length, read := 0 }

theorem writerOfBits_nil : writerOfBits [] = CreateWriter := rfl

theorem one_shiftLeft_sub_one (n : Nat) : (1 <<< n) - 1 = 2 ^ n - 1 := by
  rw [Nat.shiftLeft_eq, one_mul]

theorem and_mask_eq_mod (x n : Nat) : x &&& ((1 <<< n) - 1) = x % 2 ^ n := by
  rw [one_shiftLeft_sub_one]
  exact Nat.and_pow_two_sub_one_eq_mod x n

theorem mod256_and_mask (x n : Nat) (h : n ≤ 8) :
    x % 256 &&& ((1 <<< n) - 1) = x % 2 ^ n := by
  rw [and_mask_eq_mod]
  show x % 2 ^ 8 % 2 ^ n = x % 2 ^ n
  exact Nat.mod_mod_of_dvd x (pow_dvd_pow 2 h)

theorem list_set_last {α : Type} (l : List α) (a x : α) :
    (l ++ [a]).set l.length x = l ++ [x] := by
  induction l with
  | nil => rfl
  | cons b r ih => simp [List.set_cons_succ, ih]

theorem list_getD_last {α : Type} (l : List α) (a d : α) :
    (l ++ [a]).getD l.length d = a := by
  induction l with
  | nil => rfl
  | cons b r ih => simp

theorem bitsToBytes_ne_nil (bs : List Bool) (h : bs ≠ []) : bitsToBytes bs ≠ [] := by
  intro hc
  have h1 := bitsToBytes_length bs
  rw [hc] at h1
  have h2 : bs.length ≠ 0 := by
    intro h0
    exact h (List.length_eq_zero.1 h0)
  simp at h1
  omega

theorem natToBits_ne_nil (n v : Nat) (h : 1 ≤ n) : natToBits n v ≠ [] := by
  intro hc
  have h1 := natToBits_length n v
  rw [hc] at h1
  simp at h1
  omega

/-- Decomposition of a packed buffer around its final partial byte. -/
theorem bitsToBytes_last_decomp (bs : List Bool) (hr1 : 1 ≤ bs.length % 8) :
    bitsToBytes bs =
      bitsToBytes (bs.take (bs.length - bs.length % 8)) ++
        [bitsToNat (bs.drop (bs.length - bs.length % 8)) * 2 ^ (8 - bs.length % 8)] := by
  have hr8 : bs.length % 8 < 8 := Nat.mod_lt _ (by norm_num)
  set m := bs.length - bs.length % 8 with hm
  have hlen1 : (bs.take m).length = m := by
    rw [List.length_take]
    omega
  have hmod1 : (bs.take m).length % 8 = 0 := by
    rw [hlen1, hm]
    omega
  have hlen2 : (bs.drop m).length = bs.length % 8 := by
    rw [List.length_drop]
    omega
  have hne2 : bs.drop m ≠ [] := by
    intro hc
    rw [← List.length_eq_zero] at *
    omega
  conv_lhs => rw [← List.take_append_drop m bs]
  rw [bitsToBytes_append_full _ _ hmod1, bitsToBytes_small _ hne2 (by omega), hlen2]

theorem offsetOfBits_eight (bs : List Bool) (hne : bs ≠ []) (h : bs.length % 8 = 0) :
    offsetOfBits bs = 8 := by
  rw [offsetOfBits, if_neg (by simpa [List.length_eq_zero] using hne), if_pos h]

theorem offsetOfBits_mod (bs : List Bool) (h : 1 ≤ bs.length % 8) :
    offsetOfBits bs = bs.length % 8 := by
  rw [offsetOfBits, if_neg (by omega), if_neg (by omega)]

theorem offsetOfBits_append_of_mod_zero (bs t : List Bool) (h : bs.length % 8 = 0)
    (ht1 : 1 ≤ t.length) (ht8 : t.length ≤ 8) :
    offsetOfBits (bs ++ t) = t.length := by
  rw [offsetOfBits, List.length_append]
  rcases Nat.lt_or_ge t.length 8 with h8 | h8
  · rw [if_neg (by omega), if_neg (by omega)]
    omega
  · have ht : t.length = 8 := by omega
    rw [if_neg (by omega), if_pos (by omega), ht]

/-- One iteration of the slow-path write loop, seen on canonical states:
    min pending (8 - length % 8) bits move from value into the buffer. -/
theorem writeLoop_step (f : Nat) (bs : List Bool) (pending value : Nat)
    (hne : bs ≠ []) (hp : 1 ≤ pending) :
    writeLoop (f + 1) (bitsToBytes bs) (offsetOfBits bs) pending value =
      writeLoop f
        (bitsToBytes (bs ++ natToBits (min pending (8 - bs.length % 8))
          (value >>> (pending - min pending (8 - bs.length % 8)))))
        (offsetOfBits (bs ++ natToBits (min pending (8 - bs.length % 8))
          (value >>> (pending - min pending (8 - bs.length % 8)))))
        (pending - min pending (8 - bs.length % 8)) value := by
  have hr8 : bs.length % 8 < 8 := Nat.mod_lt _ (by norm_num)
  set r := bs.length % 8 with hrdef
  set nb := min pending (8 - r) with hnb
  have hnb1 : 1 ≤ nb := by omega
  have hnb8 : nb ≤ 8 - r := by omega
  set rem := pending - nb with hrem
  set t := natToBits nb (value >>> rem) with ht
  have htlen : t.length = nb := natToBits_length _ _
  have htne : t ≠ [] := natToBits_ne_nil _ _ hnb1
  have hchunk : bitsToNat t = (value >>> rem) % 2 ^ nb := bitsToNat_natToBits _ _
  rcases Nat.eq_zero_or_pos r with hr0 | hr1
  · -- byte-aligned state: offset 8, a fresh zero byte is appended first
    have hoff : offsetOfBits bs = 8 := offsetOfBits_eight bs hne (by omega)
    rw [hoff]
    simp only [writeLoop]
    rw [if_neg (show ¬pending = 0 by omega)]
    have hA : (if True ∨ bitsToBytes bs = [] then bitsToBytes bs ++ [0]
        else bitsToBytes bs) = bitsToBytes bs ++ [0] := if_pos (Or.inl trivial)
    have hB : (if True ∨ bitsToBytes bs = [] then 0 else 8) = 0 :=
      if_pos (Or.inl trivial)
    rw [hA, hB]
    have hmin : pending ⊓ (8 - 0) = nb := by omega
    rw [hmin]
    have hlast : (bitsToBytes bs ++ [0]).length - 1 = (bitsToBytes bs).length := by
      simp
    rw [hlast, list_getD_last, list_set_last]
    have hchunkval : (value >>> (pending - nb)) % 256 &&& ((1 <<< nb) - 1) =
        (value >>> rem) % 2 ^ nb := by
      rw [← hrem]
      exact mod256_and_mask _ _ (by omega)
    rw [hchunkval, Nat.zero_or, Nat.shiftLeft_eq]
    have hbuf : bitsToBytes bs ++ [(value >>> rem) % 2 ^ nb * 2 ^ (8 - 0 - nb)] =
        bitsToBytes (bs ++ t) := by
      rw [bitsToBytes_append_full bs t (by omega),
        bitsToBytes_small t htne (by omega), hchunk, htlen]
    rw [hbuf]
    have hofft : offsetOfBits (bs ++ t) = 0 + nb := by
      rw [offsetOfBits_append_of_mod_zero bs t (by omega) (by omega) (by omega), htlen]
      omega
    rw [← hofft]
  · -- mid-byte state: bits are packed into the existing final byte
    have hoff : offsetOfBits bs = r := offsetOfBits_mod bs hr1
    rw [hoff]
    simp only [writeLoop]
    rw [if_neg (show ¬pending = 0 by omega)]
    have hcnd : ¬(r = 8 ∨ bitsToBytes bs = []) := by
      push_neg
      exact ⟨by omega, bitsToBytes_ne_nil bs hne⟩
    have hA : (if r = 8 ∨ bitsToBytes bs = [] then bitsToBytes bs ++ [0]
        else bitsToBytes bs) = bitsToBytes bs := if_neg hcnd
    have hB : (if r = 8 ∨ bitsToBytes bs = [] then 0 else r) = r := if_neg hcnd
    rw [hA, hB, ← hnb, ← hrem]
    set m := bs.length - r with hm
    have hdec := bitsToBytes_last_decomp bs (by omega)
    rw [← hrdef, ← hm] at hdec
    set L := bitsToBytes (bs.take m) with hL
    set bs1 := bs.drop m with hbs1
    have hlen1 : (bs.take m).length = m := by
      rw [List.length_take]
      omega
    have hmod1 : (bs.take m).length % 8 = 0 := by
      rw [hlen1, hm]
      omega
    have hlenbs1 : bs1.length = r := by
      rw [hbs1, List.length_drop]
      omega
    have hlast : (bitsToBytes bs).length - 1 = L.length := by
      rw [hdec]
      simp
    rw [hlast]
    conv_lhs => rw [hdec, list_getD_last, list_set_last]
    have hchunkval : (value >>> rem) % 256 &&& ((1 <<< nb) - 1) =
        (value >>> rem) % 2 ^ nb := mod256_and_mask _ _ (by omega)
    rw [hchunkval, Nat.shiftLeft_eq]
    have hlor : bitsToNat bs1 * 2 ^ (8 - r) ||| (value >>> rem) % 2 ^ nb * 2 ^ (8 - r - nb) =
        bitsToNat bs1 * 2 ^ (8 - r) + (value >>> rem) % 2 ^ nb * 2 ^ (8 - r - nb) := by
      apply lor_mul_pow_add
      calc (value >>> rem) % 2 ^ nb * 2 ^ (8 - r - nb)
          < 2 ^ nb * 2 ^ (8 - r - nb) :=
            (Nat.mul_lt_mul_right (by positivity)).mpr (Nat.mod_lt _ (by positivity))
        _ = 2 ^ (8 - r) := by
            rw [← pow_add]
            congr 1
            omega
    rw [hlor]
    have hsum : bitsToNat bs1 * 2 ^ (8 - r) + (value >>> rem) % 2 ^ nb * 2 ^ (8 - r - nb) =
        bitsToNat (bs1 ++ t) * 2 ^ (8 - (r + nb)) := by
      rw [bitsToNat_append, htlen, hchunk]
      have e2 : (8 : Nat) - r - nb = 8 - (r + nb) := by omega
      rw [e2]
      have e1 : (8 : Nat) - r = nb + (8 - (r + nb)) := by omega
      rw [e1, pow_add]
      ring
    rw [hsum]
    have hbuf : L ++ [bitsToNat (bs1 ++ t) * 2 ^ (8 - (r + nb))] = bitsToBytes (bs ++ t) := by
      have hsplitbs : bs ++ t = bs.take m ++ (bs1 ++ t) := by
        rw [← List.append_assoc, hbs1, List.take_append_drop]
      rw [hsplitbs, bitsToBytes_append_full _ _ hmod1,
        bitsToBytes_small (bs1 ++ t) (by simp [htne])
          (by rw [List.length_append, hlenbs1, htlen]; omega)]
      rw [List.length_append, hlenbs1, htlen]
    rw [hbuf]
    have hofft : offsetOfBits (bs ++ t) = r + nb := by
      have hlapp : (bs ++ t).length = bs.length + nb := by
        rw [List.length_append, htlen]
      rcases Nat.lt_or_ge (r + nb) 8 with hlt | hge
      · rw [offsetOfBits, hlapp, if_neg (by omega), if_neg (by omega)]
        omega
      · have h8 : r + nb = 8 := by omega
        rw [offsetOfBits, hlapp, if_neg (by omega), if_pos (by omega)]
        omega
    rw [← hofft]

/-- The slow-path write loop on canonical states appends exactly the pending
    low bits of value, given enough fuel. -/
theorem writeLoop_spec (pending : Nat) : ∀ fuel bs value, bs ≠ [] → pending ≤ fuel →
    writeLoop fuel (bitsToBytes bs) (offsetOfBits bs) pending value =
      (bitsToBytes (bs ++ natToBits pending value),
        offsetOfBits (bs ++ natToBits pending value)) := by
  induction pending using Nat.strong_induction_on with
  | _ pending ih =>
    intro fuel bs value hne hfuel
    rcases Nat.eq_zero_or_pos pending with hp0 | hp1
    · subst hp0
      cases fuel with
      | zero => simp [writeLoop, natToBits]
      | succ f => simp [writeLoop, natToBits]
    · obtain ⟨f, rfl⟩ : ∃ f, fuel = f + 1 := ⟨fuel - 1, by omega⟩
      rw [writeLoop_step f bs pending value hne hp1]
      have hr8 : bs.length % 8 < 8 := Nat.mod_lt _ (by norm_num)
      set nb := min pending (8 - bs.length % 8) with hnb
      have hnb1 : 1 ≤ nb := by omega
      set t := natToBits nb (value >>> (pending - nb)) with ht
      have hone : bs ++ t ≠ [] := by simp [hne]
      rw [ih (pending - nb) (by omega) f (bs ++ t) value hone (by omega)]
      have hsplit : natToBits pending value = t ++ natToBits (pending - nb) value := by
        conv_lhs => rw [show pending = nb + (pending - nb) by omega]
        rw [natToBits_split, ht]
      rw [List.append_assoc, ← hsplit]

/-- Shifting out fewer bits than were shifted in. -/
theorem mul_pow_shiftRight (x a b : Nat) (h : a ≤ b) :
    (x * 2 ^ a) >>> b = x >>> (b - a) := by
  obtain ⟨d, rfl⟩ : ∃ d, b = a + d := ⟨b - a, by omega⟩
  rw [Nat.shiftRight_eq_div_pow, Nat.shiftRight_eq_div_pow, pow_add,
    ← Nat.div_div_eq_div_mul, Nat.mul_div_cancel _ (by positivity : (0:Nat) < 2 ^ a),
    Nat.add_sub_cancel_left]

/-- The packed bytes of an 8m-bit field are its big-endian byte decomposition. -/
theorem bitsToBytes_natToBits_map (m : Nat) : ∀ V,
    bitsToBytes (natToBits (8 * m) V) =
      (List.range m).map fun k => V >>> (8 * (m - 1 - k)) % 256 := by
  induction m with
  | zero => intro V; simp [natToBits, bitsToBytes_nil]
  | succ m ih =>
    intro V
    have h8 : 8 * (m + 1) = 8 + 8 * m := by ring
    rw [h8, natToBits_split, bitsToBytes_append_full _ _ (by rw [natToBits_length]),
      bitsToBytes_small _ (natToBits_ne_nil _ _ (by norm_num)) (by rw [natToBits_length]),
      natToBits_length, bitsToNat_natToBits, ih]
    rw [List.range_succ_eq_map, List.map_cons, List.map_map]
    have hhead : (V >>> (8 * m)) % 2 ^ 8 * 2 ^ (8 - 8) = V >>> (8 * (m + 1 - 1 - 0)) % 256 := by
      norm_num
    have htail : (List.range m).map ((fun k => V >>> (8 * (m + 1 - 1 - k)) % 256) ∘ Nat.succ) =
        (List.range m).map fun k => V >>> (8 * (m - 1 - k)) % 256 := by
      apply List.map_congr_left
      intro k hk
      simp only [Function.comp]
      have he : m + 1 - 1 - Nat.succ k = m - 1 - k := by omega
      rw [he]
    rw [hhead, htail]
    rfl

theorem take_range_map {α : Type} (f : Nat → α) (n m : Nat) (h : m ≤ n) :
    ((List.range n).map f).take m = (List.range m).map f := by
  rw [← List.map_take, List.take_range, Nat.min_eq_left h]

theorem offsetOfBits_append_left_zero (bs t : List Bool) (h : bs.length % 8 = 0)
    (ht : t ≠ []) : offsetOfBits (bs ++ t) = offsetOfBits t := by
  have ht0 : t.length ≠ 0 := by
    simpa [List.length_eq_zero] using ht
  rw [offsetOfBits, offsetOfBits, List.length_append,
    if_neg (show ¬(bs.length + t.length = 0) by omega), if_neg ht0,
    show (bs.length + t.length) % 8 = t.length % 8 by omega]

theorem offsetOfBits_natToBits (n v : Nat) (h : 1 ≤ n) :
    offsetOfBits (natToBits n v) = if n % 8 = 0 then 8 else n % 8 := by
  rw [offsetOfBits, natToBits_length, if_neg (by omega)]

/-- Codec.Write on a canonical writer appends exactly num bits of value. -/
theorem Write_writerOfBits (bs : List Bool) (num value : Nat)
    (h1 : 1 ≤ num) (h64 : num ≤ 64) :
    (writerOfBits bs).Write num value = (none, writerOfBits (bs ++ natToBits num value)) := by
  have hmask : value &&& ((1 <<< num) - 1) = value % 2 ^ num := and_mask_eq_mod value num
  have hbits : natToBits num (value % 2 ^ num) = natToBits num value := natToBits_mod num value
  have hlen : (bs ++ natToBits num value).length = bs.length + num := by
    rw [List.length_append, natToBits_length]
  have hne2 : natToBits num value ≠ [] := natToBits_ne_nil _ _ h1
  simp only [Codec.Write, writerOfBits]
  rw [if_neg (show ¬(num = 0 ∨ num > 64) by omega)]
  rcases Nat.eq_zero_or_pos (bs.length % 8) with hmod | hmod
  · -- byte-aligned canonical state: the fast path runs
    have hcond : bitsToBytes bs = [] ∨ offsetOfBits bs = 8 := by
      rcases eq_or_ne bs [] with rfl | hne
      · exact Or.inl rfl
      · exact Or.inr (offsetOfBits_eight bs hne hmod)
    rw [if_pos hcond]
    have hrem : num &&& 7 = num % 8 := and_mask_eq_mod num 3
    set nbytes := (num + 7) >>> 3 with hnbytes
    have hnbv : nbytes = (num + 7) / 8 := by
      rw [hnbytes, Nat.shiftRight_eq_div_pow]
    set p := (8 - num % 8) % 8 with hp
    have hnp : num + p = 8 * nbytes := by
      rw [hnbv, hp]
      omega
    have htmp : ((List.range 8).map fun i =>
          ((value &&& ((1 <<< num) - 1)) <<< (64 - num)) >>> (8 * (7 - i)) % 256).take nbytes =
        bitsToBytes (natToBits num value) := by
      rw [take_range_map _ 8 nbytes (by rw [hnbv]; omega)]
      rw [← hbits, ← bitsToBytes_alignBits (natToBits num (value % 2 ^ num)), alignBits]
      have hpl : padLen (natToBits num (value % 2 ^ num)) = p := by
        rw [padLen, natToBits_length, hp]
      rw [hpl, ← natToBits_mul_pow, hnp, bitsToBytes_natToBits_map]
      apply List.map_congr_left
      intro k hk
      rw [List.mem_range] at hk
      rw [hmask, Nat.shiftLeft_eq]
      have hexp : 64 - num = p + 8 * (8 - nbytes) := by omega
      have he : value % 2 ^ num * 2 ^ (64 - num) =
          value % 2 ^ num * 2 ^ p * 2 ^ (8 * (8 - nbytes)) := by
        rw [Nat.mul_assoc, ← pow_add, hexp]
      rw [he, mul_pow_shiftRight _ _ _ (by omega)]
      congr 2
      omega
    rw [htmp]
    have hbuf : bitsToBytes bs ++ bitsToBytes (natToBits num value) =
        bitsToBytes (bs ++ natToBits num value) :=
      (bitsToBytes_append_full bs _ hmod).symm
    rw [hbuf, hrem]
    have hoff : (if num % 8 = 0 then 8 else num % 8) =
        offsetOfBits (bs ++ natToBits num value) := by
      rw [offsetOfBits_append_left_zero bs _ hmod hne2, offsetOfBits_natToBits num value h1]
    rw [hoff, ← hlen]
  · -- mid-byte canonical state: the slow path runs
    have hne : bs ≠ [] := by
      intro hc
      rw [hc] at hmod
      simp at hmod
    have hcond : ¬(bitsToBytes bs = [] ∨ offsetOfBits bs = 8) := by
      push_neg
      refine ⟨bitsToBytes_ne_nil bs hne, ?_⟩
      rw [offsetOfBits_mod bs hmod]
      omega
    rw [if_neg hcond, hmask]
    have hloop := writeLoop_spec num num bs (value % 2 ^ num) hne (le_refl num)
    rw [hbits] at hloop
    rw [hloop, ← hlen]

/-- Codec.Align on a canonical writer pads the bit string to the byte boundary. -/
theorem Align_writerOfBits (bs : List Bool) :
    (writerOfBits bs).Align = writerOfBits (alignBits bs) := by
  rw [Codec.Align]
  rcases Nat.eq_zero_or_pos (bs.length % 8) with hmod | hmod
  · have hoff : offsetOfBits bs = 0 ∨ offsetOfBits bs = 8 := by
      rcases eq_or_ne bs [] with rfl | hne
      · exact Or.inl rfl
      · exact Or.inr (offsetOfBits_eight bs hne hmod)
    rw [if_neg (by
      show ¬(0 < (writerOfBits bs).offset ∧ (writerOfBits bs).offset < 8)
      rcases hoff with h | h <;>
        rw [show (writerOfBits bs).offset = offsetOfBits bs from rfl, h] <;> omega)]
    rw [alignBits_of_mod bs hmod]
  · have hoff : offsetOfBits bs = bs.length % 8 := offsetOfBits_mod bs hmod
    have hr8 : bs.length % 8 < 8 := Nat.mod_lt _ (by norm_num)
    rw [if_pos (by
      show 0 < (writerOfBits bs).offset ∧ (writerOfBits bs).offset < 8
      rw [show (writerOfBits bs).offset = offsetOfBits bs from rfl, hoff]
      omega)]
    have hone : alignBits bs ≠ [] := by
      intro hc
      have := alignBits_length bs
      rw [hc] at this
      simp at this
      omega
    have hb : bitsToBytes (alignBits bs) = bitsToBytes bs := bitsToBytes_alignBits bs
    have ho : offsetOfBits (alignBits bs) = 8 :=
      offsetOfBits_eight _ hone (alignBits_length_mod bs)
    have hw : (alignBits bs).length = bs.length + (8 - bs.length % 8) := by
      rw [alignBits_length, padLen]
      omega
    simp only [writerOfBits, hb, ho, hw, hoff]

theorem bitsToBytes_streamBits (data : List Nat) (hdat : ∀ b ∈ data, b < 256) :
    bitsToBytes (streamBits data) = data := by
  induction data with
  | nil => simp [streamBits_nil, bitsToBytes_nil]
  | cons b r ih =>
    rw [streamBits_cons,
      bitsToBytes_append_full _ _ (by rw [byteBits, natToBits_length]),
      bitsToBytes_small (byteBits b) (natToBits_ne_nil _ _ (by norm_num))
        (by rw [byteBits, natToBits_length]),
      byteBits, natToBits_length, bitsToNat_natToBits,
      ih (fun x hx => hdat x (List.mem_cons_of_mem b hx))]
    have hb : b % 2 ^ 8 = b := Nat.mod_eq_of_lt (by
      have := hdat b (List.mem_cons_self b r)
      norm_num
      omega)
    rw [hb]
    norm_num

/-- The slow path of WriteBytes on a canonical writer. -/
theorem writeBytesLoop_writerOfBits (data : List Nat) : ∀ bs : List Bool,
    writeBytesLoop (writerOfBits bs) data = (none, writerOfBits (bs ++ streamBits data)) := by
  induction data with
  | nil =>
    intro bs
    rw [writeBytesLoop, streamBits_nil, List.append_nil]
  | cons b r ih =>
    intro bs
    rw [writeBytesLoop]
    rw [Write_writerOfBits bs 8 b (by norm_num) (by norm_num)]
    show writeBytesLoop (writerOfBits (bs ++ natToBits 8 b)) r = _
    rw [ih (bs ++ natToBits 8 b), streamBits_cons, byteBits, List.append_assoc]

/-- Codec.WriteBytes on a canonical writer appends the bytes bit by bit. -/
theorem WriteBytes_writerOfBits (bs : List Bool) (data : List Nat)
    (hdat : ∀ b ∈ data, b < 256) :
    (writerOfBits bs).WriteBytes data = (none, writerOfBits (bs ++ streamBits data)) := by
  rw [Codec.WriteBytes]
  rcases eq_or_ne data [] with rfl | hne
  · rw [if_pos rfl, streamBits_nil, List.append_nil]
  · rw [if_neg hne]
    rcases Nat.eq_zero_or_pos (bs.length % 8) with hmod | hmod
    · have hcond : (writerOfBits bs).buff = [] ∨ (writerOfBits bs).offset = 8 := by
        rcases eq_or_ne bs [] with rfl | hbne
        · exact Or.inl rfl
        · exact Or.inr (offsetOfBits_eight bs hbne hmod)
      rw [if_pos hcond]
      have hsne : streamBits data ≠ [] := by
        intro hc
        have := streamBits_length data
        rw [hc] at this
        simp at this
        exact hne this
      have hbuf : bitsToBytes bs ++ data = bitsToBytes (bs ++ streamBits data) := by
        rw [bitsToBytes_append_full _ _ hmod, bitsToBytes_streamBits data hdat]
      have hoff : (8 : Nat) = offsetOfBits (bs ++ streamBits data) := by
        rw [offsetOfBits_append_left_zero bs _ hmod hsne, offsetOfBits,
          if_neg (by rw [streamBits_length]; simpa [List.length_eq_zero] using hne),
          if_pos (by rw [streamBits_length]; omega)]
      have hwr : bs.length + data.length * 8 = (bs ++ streamBits data).length := by
        rw [List.length_append, streamBits_length]
        ring
      simp only [writerOfBits]
      rw [hbuf, hwr, hoff]
    · have hbne : bs ≠ [] := by
        intro hc
        rw [hc] at hmod
        simp at hmod
      have hcond : ¬((writerOfBits bs).buff = [] ∨ (writerOfBits bs).offset = 8) := by
        push_neg
        refine ⟨bitsToBytes_ne_nil bs hbne, ?_⟩
        rw [show (writerOfBits bs).offset = offsetOfBits bs from rfl, offsetOfBits_mod bs hmod]
        omega
      rw [if_neg hcond]
      exact writeBytesLoop_writerOfBits data bs

/-- readerOfBits is the canonical reader state over the source bytes B after
    k bits have been consumed: the fully serviced bytes are dropped lazily, so
    a byte whose last bit was just delivered stays at the head with offset 8. -/
def readerOfBits (B : List Nat) (k : Nat) : Codec :=
  if k = 0 then CreateReader B
  else { buff := B.drop ((k - 1) / 8), offset := (k - 1) % 8 + 1, written := 0, read := k }

theorem readerOfBits_zero (B : List Nat) : readerOfBits B 0 = CreateReader B := rfl

theorem readLoop_zero_pending (fuel : Nat) (buff : List Nat) (off acc : Nat) :
    readLoop fuel buff off 0 acc = (none, acc, buff, off) := by
  cases fuel with
  | zero => rfl
  | succ f => rfl

theorem beVal_foldl (T : List Nat) : ∀ a : Nat,
    List.foldl (fun x y => x * 256 + y) a T = a * 256 ^ T.length + beVal T := by
  induction T with
  | nil =>
    intro a
    simp [beVal]
  | cons b t ih =>
    intro a
    rw [List.foldl_cons, ih (a * 256 + b)]
    have hb : beVal (b :: t) = b * 256 ^ t.length + beVal t := by
      show List.foldl (fun x y => x * 256 + y) (0 * 256 + b) t = _
      rw [ih (0 * 256 + b)]
      ring_nf
    rw [hb, List.length_cons]
    ring

theorem beVal_cons (b : Nat) (t : List Nat) :
    beVal (b :: t) = b * 256 ^ t.length + beVal t := by
  show List.foldl (fun x y => x * 256 + y) (0 * 256 + b) t = _
  rw [beVal_foldl t (0 * 256 + b)]
  ring_nf

theorem bitsToNat_streamBits (T : List Nat) (h : ∀ b ∈ T, b < 256) :
    bitsToNat (streamBits T) = beVal T := by
  induction T with
  | nil => rfl
  | cons b t ih =>
    have hb : b % 2 ^ 8 = b := Nat.mod_eq_of_lt (by
      have := h b (List.mem_cons_self b t)
      omega)
    rw [streamBits_cons, bitsToNat_append, byteBits, bitsToNat_natToBits, hb,
      streamBits_length, ih (fun x hx => h x (List.mem_cons_of_mem b hx)), beVal_cons]
    have h256 : (2 : Nat) ^ (8 * t.length) = 256 ^ t.length := by
      rw [pow_mul]
      norm_num
    rw [h256]

theorem streamBits_take_bytes (B : List Nat) : ∀ m : Nat,
    (streamBits B).take (8 * m) = streamBits (B.take m) := by
  induction B with
  | nil =>
    intro m
    simp [streamBits_nil]
  | cons b t ih =>
    intro m
    cases m with
    | zero => simp [streamBits_nil]
    | succ n =>
      rw [List.take_succ_cons, streamBits_cons, streamBits_cons,
        show 8 * (n + 1) = 8 + 8 * n by ring,
        List.take_add (byteBits b ++ streamBits t) 8 (8 * n),
        List.take_append_of_le_length (by rw [byteBits, natToBits_length]),
        List.drop_append_of_le_length (by rw [byteBits, natToBits_length]), byteBits,
        List.take_of_length_le (by rw [natToBits_length]),
        natToBits_drop 8 8 b (le_refl 8)]
      simp only [show (8 : Nat) - 8 = 0 from rfl, natToBits, List.nil_append]
      rw [ih n]

theorem bitsToNat_append_shiftRight (xs ys : List Bool) :
    bitsToNat (xs ++ ys) >>> ys.length = bitsToNat xs := by
  rw [bitsToNat_append, Nat.shiftRight_eq_div_pow, Nat.mul_comm,
    Nat.mul_add_div (by positivity), Nat.div_eq_of_lt (bitsToNat_lt ys), Nat.add_zero]

/-- A read loop entered at offset 8 first drops the serviced head byte. -/
theorem readLoop_eight (f : Nat) (buff : List Nat) (n acc : Nat) (h1 : n ≠ 0)
    (hne : buff.drop 1 ≠ []) :
    readLoop (f + 1) buff 8 n acc = readLoop (f + 1) (buff.drop 1) 0 n acc := by
  have hne2 : ¬buff.tail = [] := by
    rw [← List.drop_one]
    exact hne
  simp only [readLoop]
  rw [if_neg h1, if_neg h1]
  simp [hne2]

/-- The slow-path read loop on a lazy suffix state delivers exactly the next n
    bits of the byte stream and lands on the lazy suffix state n bits on. -/
theorem readLoop_spec (B : List Nat) : ∀ n, ∀ fuel j o acc,
    1 ≤ n → n ≤ fuel → o ≤ 8 → 8 * j + o + n ≤ 8 * B.length →
    readLoop fuel (B.drop j) o n acc =
      (none, acc * 2 ^ n + bitsToNat (((streamBits B).drop (8 * j + o)).take n),
       B.drop ((8 * j + o + n - 1) / 8), (8 * j + o + n - 1) % 8 + 1) := by
  intro n
  induction n using Nat.strong_induction_on with
  | _ n IH =>
    intro fuel j o acc h1 hf ho hb
    obtain ⟨f, rfl⟩ : ∃ f, fuel = f + 1 := ⟨fuel - 1, by omega⟩
    obtain ⟨J, O, hJO, hO, hred⟩ : ∃ J O, 8 * j + o = 8 * J + O ∧ O < 8 ∧
        readLoop (f + 1) (B.drop j) o n acc = readLoop (f + 1) (B.drop J) O n acc := by
      rcases eq_or_ne o 8 with rfl | ho8
      · refine ⟨j + 1, 0, by ring, by omega, ?_⟩
        have hne : (B.drop j).drop 1 ≠ [] := by
          rw [List.drop_drop]
          intro hc
          have hlc := congrArg List.length hc
          rw [List.length_drop] at hlc
          simp at hlc
          omega
        rw [readLoop_eight f (B.drop j) n acc (by omega) hne, List.drop_drop]
      · exact ⟨j, o, rfl, by omega, rfl⟩
    rw [hred, hJO]
    have hb2 : 8 * J + O + n ≤ 8 * B.length := by omega
    have hn0 : ¬n = 0 := by omega
    have hO8 : ¬O = 8 := by omega
    have hJlt : J < B.length := by omega
    have hcons : B.drop J = B.getD J 0 :: B.drop (J + 1) := by
      rw [List.drop_eq_getElem_cons hJlt, List.getD_eq_getElem B 0 hJlt]
    have hhead : (B.drop J).headD 0 = B.getD J 0 := by
      rw [hcons, List.headD_cons]
    have hbits : ∀ rd, 1 ≤ rd → rd ≤ 8 - O →
        B.getD J 0 >>> (8 - O - rd) &&& ((1 <<< rd) - 1) =
          bitsToNat (((streamBits B).drop (8 * J + O)).take rd) := by
      intro rd hrd1 hrd2
      have hdropstream : (streamBits B).drop (8 * J + O) =
          natToBits (8 - O) (B.getD J 0) ++ streamBits (B.drop (J + 1)) := by
        rw [← List.drop_drop, streamBits_drop_bytes, hcons, streamBits_cons, byteBits,
          List.drop_append_of_le_length (by rw [natToBits_length]; omega),
          natToBits_drop O 8 _ (by omega)]
      rw [hdropstream,
        List.take_append_of_le_length (by rw [natToBits_length]; omega),
        natToBits_take rd (8 - O) _ (by omega), bitsToNat_natToBits, and_mask_eq_mod]
    simp only [readLoop, if_neg hn0, if_neg hO8]
    rw [if_neg (show ¬(O = 8 ∧ B.drop J = []) from fun h => hO8 h.1), hhead]
    rcases le_or_lt n (8 - O) with hle | hlt
    · rw [min_eq_left hle, Nat.sub_self, readLoop_zero_pending]
      simp only [Prod.mk.injEq]
      refine ⟨trivial, ?_, ?_, ?_⟩
      · have hlb := bitsToNat_lt (((streamBits B).drop (8 * J + O)).take n)
        have hll : (((streamBits B).drop (8 * J + O)).take n).length ≤ n := by
          simp [List.length_take]
        have hblt : bitsToNat (((streamBits B).drop (8 * J + O)).take n) < 2 ^ n :=
          lt_of_lt_of_le hlb (Nat.pow_le_pow_right (by norm_num) hll)
        rw [hbits n h1 hle, Nat.shiftLeft_eq, lor_mul_pow_add _ _ _ hblt]
      · congr 1
        omega
      · omega
    · rw [min_eq_right (le_of_lt hlt), hbits (8 - O) (by omega) (le_refl (8 - O)),
        show O + (8 - O) = 8 by omega]
      rw [IH (n - (8 - O)) (by omega) f J 8
        (acc <<< (8 - O) ||| bitsToNat (((streamBits B).drop (8 * J + O)).take (8 - O)))
        (by omega) (by omega) (by omega) (by omega)]
      simp only [Prod.mk.injEq]
      have hlen1 : (((streamBits B).drop (8 * J + O)).take (8 - O)).length = 8 - O := by
        simp [List.length_take, List.length_drop, streamBits_length]
        omega
      have hlen2 : (((streamBits B).drop (8 * J + 8)).take (n - (8 - O))).length
          = n - (8 - O) := by
        simp [List.length_take, List.length_drop, streamBits_length]
        omega
      refine ⟨trivial, ?_, ?_, ?_⟩
      · have hsplitT : ((streamBits B).drop (8 * J + O)).take n =
            ((streamBits B).drop (8 * J + O)).take (8 - O) ++
              ((streamBits B).drop (8 * J + 8)).take (n - (8 - O)) := by
          conv_lhs => rw [show n = (8 - O) + (n - (8 - O)) by omega]
          rw [List.take_add ((streamBits B).drop (8 * J + O)) (8 - O) (n - (8 - O)),
            List.drop_drop, show 8 * J + O + (8 - O) = 8 * J + 8 by omega]
        have hb1lt :
            bitsToNat (((streamBits B).drop (8 * J + O)).take (8 - O)) < 2 ^ (8 - O) := by
          have := bitsToNat_lt (((streamBits B).drop (8 * J + O)).take (8 - O))
          rw [hlen1] at this
          exact this
        have hpow : (2 : Nat) ^ (8 - O) * 2 ^ (n - (8 - O)) = 2 ^ n := by
          rw [← pow_add]
          congr 1
          omega
        rw [hsplitT, bitsToNat_append, hlen2, Nat.shiftLeft_eq,
          lor_mul_pow_add _ _ _ hb1lt, Nat.add_mul, Nat.mul_assoc, hpow]
        ring
      · congr 1
        omega
      · omega

theorem streamBits_replicate_zero (m : Nat) :
    streamBits (List.replicate m 0) = List.replicate (8 * m) false := by
  induction m with
  | zero => rfl
  | succ n ih =>
    rw [List.replicate_succ, streamBits_cons, byteBits, natToBits_zero, ih,
      show 8 * (n + 1) = 8 + 8 * n by ring, List.replicate_add]

/-- The value assembled by the byte-aligned fast read path is the next num
    bits of the stream. -/
theorem beVal_take_shift (B : List Nat) (hB : ∀ b ∈ B, b < 256) (q num : Nat)
    (h1 : 1 ≤ num) (h64 : num ≤ 64) (hlen : 8 * q + num ≤ 8 * B.length) :
    beVal ((B.drop q).take ((num + 7) / 8) ++ List.replicate (8 - (num + 7) / 8) 0) >>>
        (64 - num) =
      bitsToNat (((streamBits B).drop (8 * q)).take num) := by
  have htmp : ∀ b ∈ (B.drop q).take ((num + 7) / 8) ++
      List.replicate (8 - (num + 7) / 8) 0, b < 256 := by
    intro b hb
    rcases List.mem_append.1 hb with h | h
    · exact hB b (List.drop_subset q B (List.take_subset _ _ h))
    · rw [List.eq_of_mem_replicate h]
      norm_num
  rw [← bitsToNat_streamBits _ htmp, streamBits_append, streamBits_replicate_zero,
    bitsToNat_append, bitsToNat_replicate_false, Nat.add_zero, List.length_replicate,
    mul_pow_shiftRight _ _ _ (by omega),
    ← streamBits_take_bytes, ← streamBits_drop_bytes]
  have hslen : ((streamBits B).drop (8 * q)).length = 8 * B.length - 8 * q := by
    rw [List.length_drop, streamBits_length]
  have hsplit : ((streamBits B).drop (8 * q)).take (8 * ((num + 7) / 8)) =
      ((streamBits B).drop (8 * q)).take num ++
        (((streamBits B).drop (8 * q)).drop num).take (8 * ((num + 7) / 8) - num) := by
    conv_lhs => rw [show 8 * ((num + 7) / 8) = num + (8 * ((num + 7) / 8) - num) by omega]
    rw [List.take_add ((streamBits B).drop (8 * q)) num (8 * ((num + 7) / 8) - num)]
  have hexp : 64 - num - 8 * (8 - (num + 7) / 8) = 8 * ((num + 7) / 8) - num := by omega
  rw [hexp, hsplit]
  have hl2 : ((((streamBits B).drop (8 * q)).drop num).take
      (8 * ((num + 7) / 8) - num)).length = 8 * ((num + 7) / 8) - num := by
    simp only [List.length_take, List.length_drop, hslen]
    omega
  have hfin := bitsToNat_append_shiftRight (((streamBits B).drop (8 * q)).take num)
    ((((streamBits B).drop (8 * q)).drop num).take (8 * ((num + 7) / 8) - num))
  rw [hl2] at hfin
  exact hfin

/-- The slow branch of Read, once the preconditions hold and the loop result
    is known. -/
theorem Read_slow (c : Codec) (num : Nat) (hn : ¬num = 0) (h64 : ¬num > 64)
    (hlen : ¬c.Len = 0) (hcond : ¬(c.buff = [] ∨ c.offset = 8))
    {v : Nat} {b : List Nat} {o : Nat}
    (hloop : readLoop num c.buff c.offset num 0 = (none, v, b, o)) :
    c.Read num = (Except.ok v, { c with buff := b, offset := o, read := c.read + num }) := by
  rw [Codec.Read, if_neg hn, if_neg h64, if_neg hlen, if_neg hcond, hloop]

/-- Read on a canonical reader returns exactly the next num bits of the byte
    stream and advances to the canonical reader state num bits further on. -/
theorem Read_readerOfBits (B : List Nat) (hB : ∀ b ∈ B, b < 256) (k num : Nat)
    (h1 : 1 ≤ num) (h64 : num ≤ 64) (hk : k + num ≤ 8 * B.length) :
    (readerOfBits B k).Read num =
      (Except.ok (bitsToNat (((streamBits B).drop k).take num)),
        readerOfBits B (k + num)) := by
  have hreq : readerOfBits B (k + num) =
      { buff := B.drop ((k + num - 1) / 8), offset := (k + num - 1) % 8 + 1,
        written := 0, read := k + num } := by
    rw [readerOfBits, if_neg (show ¬k + num = 0 from by omega)]
  have hcase : (k = 0 ∨ k % 8 ≠ 0) ∨ (k ≠ 0 ∧ k % 8 = 0) := by omega
  rcases hcase with hslow | ⟨hk0, hm8⟩
  · have hc : readerOfBits B k =
        { buff := B.drop (k / 8), offset := k % 8, written := 0, read := k } := by
      rcases hslow with rfl | hkm
      · simp [readerOfBits, CreateReader]
      · have hk0 : k ≠ 0 := by omega
        simp only [readerOfBits, if_neg hk0, Codec.mk.injEq]
        exact ⟨by congr 1; omega, by omega, trivial, trivial⟩
    have hspec := readLoop_spec B num num (k / 8) (k % 8) 0 h1 (le_refl num)
      (by omega) (by omega)
    rw [show 8 * (k / 8) + k % 8 = k from by omega] at hspec
    rw [hc, Read_slow _ num (by omega) (by omega)
      (by
        show ¬(B.drop (k / 8)).length = 0
        rw [List.length_drop]
        omega)
      (by
        push_neg
        constructor
        · show ¬B.drop (k / 8) = []
          intro hcb
          have hlc := congrArg List.length hcb
          rw [List.length_drop] at hlc
          simp at hlc
          omega
        · show ¬k % 8 = 8
          omega)
      hspec, hreq]
    simp
  · have hcF : readerOfBits B k =
        { buff := B.drop (k / 8 - 1), offset := 8, written := 0, read := k } := by
      simp only [readerOfBits, if_neg hk0, Codec.mk.injEq]
      exact ⟨by congr 1; omega, by omega, trivial, trivial⟩
    rw [hcF]
    have hnb : (num + 7) >>> 3 = (num + 7) / 8 := by
      rw [Nat.shiftRight_eq_div_pow]
    have hq : k / 8 - 1 + 1 = k / 8 := by omega
    have hn0 : ¬num = 0 := by omega
    have hn64 : ¬num > 64 := by omega
    have hlen1 : ¬B.length - (k / 8 - 1) = 0 := by omega
    have hb1 : ¬B.drop (k / 8 - 1) = [] := by
      intro hcb
      have hlc := congrArg List.length hcb
      rw [List.length_drop] at hlc
      simp at hlc
      omega
    have hb2 : ¬B.drop (k / 8) = [] := by
      intro hcb
      have hlc := congrArg List.length hcb
      rw [List.length_drop] at hlc
      simp at hlc
      omega
    have hins : ¬B.length - k / 8 < (num + 7) / 8 := by omega
    have hval := beVal_take_shift B hB (k / 8) num h1 h64 (by omega)
    rw [show 8 * (k / 8) = k from by omega] at hval
    have hreqF : readerOfBits B (k + num) =
        { buff := B.drop (k / 8 + ((num + 7) / 8 - 1)),
          offset := if num % 8 = 0 then 8 else num % 8, written := 0, read := k + num } := by
      rw [hreq]
      simp only [Codec.mk.injEq]
      refine ⟨by congr 1; omega, ?_, trivial, trivial⟩
      rcases Nat.eq_zero_or_pos (num % 8) with hnm | hnm
      · rw [if_pos (by omega)]
        omega
      · rw [if_neg (by omega)]
        omega
    simp only [Codec.Read, Codec.Len, List.length_drop, hnb, List.drop_drop, hq,
      eq_false hn0, eq_false hn64, eq_false hlen1, eq_false hb1, eq_false hb2,
      eq_false hins, hval, hreqF, if_true, if_false, true_and, and_true, or_true,
      true_or, and_false, false_and]

/-- writeAll performs the Write calls for the (num, value) pairs in order. -/
def writeAll (c : Codec) : List (Nat × Nat) → Codec
  | [] => c
  | p :: r => writeAll (c.Write p.1 p.2).2 r

/-- readAll performs the Read calls for the given bit counts in order,
    collecting the results. -/
def readAll (c : Codec) : List Nat → List (Except String Nat) × Codec
  | [] => ([], c)
  | n :: r =>
    let res := c.Read n
    let rest := readAll res.2 r
    (res.1 :: rest.1, rest.2)

/-- bitsOfPairs is the bit string produced by writing the pairs in order. -/
def bitsOfPairs (ps : List (Nat × Nat)) : List Bool :=
  (ps.map fun p => natToBits p.1 p.2).flatten

/-- streamVals lists the values delivered by sequential reads of the given
    widths from position k of the bit stream S. -/
def streamVals (S : List Bool) : Nat → List Nat → List (Except String Nat)
  | _, [] => []
  | k, n :: r => Except.ok (bitsToNat ((S.drop k).take n)) :: streamVals S (k + n) r

theorem bitsOfPairs_nil : bitsOfPairs [] = [] := rfl

theorem bitsOfPairs_cons (p : Nat × Nat) (r : List (Nat × Nat)) :
    bitsOfPairs (p :: r) = natToBits p.1 p.2 ++ bitsOfPairs r := by
  simp [bitsOfPairs]

theorem bitsOfPairs_length (ps : List (Nat × Nat)) :
    (bitsOfPairs ps).length = (ps.map fun p => p.1).sum := by
  induction ps with
  | nil => rfl
  | cons p r ih =>
    rw [bitsOfPairs_cons, List.length_append, natToBits_length, ih, List.map_cons,
      List.sum_cons]

theorem writeAll_writerOfBits : ∀ ps : List (Nat × Nat), ∀ bs : List Bool,
    (∀ p ∈ ps, 1 ≤ p.1 ∧ p.1 ≤ 64) →
    writeAll (writerOfBits bs) ps = writerOfBits (bs ++ bitsOfPairs ps) := by
  intro ps
  induction ps with
  | nil =>
    intro bs _
    rw [writeAll, bitsOfPairs_nil, List.append_nil]
  | cons p r ih =>
    intro bs hps
    have hp := hps p (List.mem_cons_self p r)
    rw [writeAll, Write_writerOfBits bs p.1 p.2 hp.1 hp.2,
      ih (bs ++ natToBits p.1 p.2) (fun q hq => hps q (List.mem_cons_of_mem p hq)),
      bitsOfPairs_cons, List.append_assoc]

/-- Bytes of a canonical writer are the packed bit string. -/
theorem Bytes_writerOfBits (bs : List Bool) : (writerOfBits bs).Bytes = bitsToBytes bs := by
  rcases eq_or_ne bs [] with rfl | hne
  · rfl
  · rw [Codec.Bytes, if_neg (by
      show ¬bs.length = 0
      simpa [List.length_eq_zero] using hne)]
    rfl

/-- Sequential reads on a canonical reader deliver the stream values. -/
theorem readAll_spec (B : List Nat) (hB : ∀ b ∈ B, b < 256) :
    ∀ (ns : List Nat) (k : Nat), (∀ n ∈ ns, 1 ≤ n ∧ n ≤ 64) →
    k + ns.sum ≤ 8 * B.length →
    readAll (readerOfBits B k) ns =
      (streamVals (streamBits B) k ns, readerOfBits B (k + ns.sum)) := by
  intro ns
  induction ns with
  | nil =>
    intro k _ _
    rw [readAll, streamVals, List.sum_nil, Nat.add_zero]
  | cons n r ih =>
    intro k hns hbound
    have hn := hns n (List.mem_cons_self n r)
    have hsum : (n :: r).sum = n + r.sum := List.sum_cons
    have hrd := Read_readerOfBits B hB k n hn.1 hn.2 (by rw [hsum] at hbound; omega)
    have hih := ih (k + n) (fun m hm => hns m (List.mem_cons_of_mem n hm))
      (by rw [hsum] at hbound; omega)
    simp only [readAll, hrd, hih, streamVals, List.sum_cons]
    rw [Nat.add_assoc]

/-- Reading back the widths of pairs laid head-to-head in the stream returns
    exactly the written values. -/
theorem streamVals_pairs : ∀ (ps : List (Nat × Nat)) (S : List Bool) (k : Nat)
    (t : List Bool), S.drop k = bitsOfPairs ps ++ t →
    (∀ p ∈ ps, p.2 < 2 ^ p.1) →
    streamVals S k (ps.map fun p => p.1) = ps.map fun p => Except.ok p.2 := by
  intro ps
  induction ps with
  | nil =>
    intro S k t _ _
    rw [List.map_nil, streamVals, List.map_nil]
  | cons p r ih =>
    intro S k t hdrop hvals
    have hp := hvals p (List.mem_cons_self p r)
    rw [List.map_cons, streamVals, List.map_cons]
    have htake : (S.drop k).take p.1 = natToBits p.1 p.2 := by
      rw [hdrop, bitsOfPairs_cons, List.append_assoc,
        List.take_append_of_le_length (by rw [natToBits_length]),
        List.take_of_length_le (by rw [natToBits_length])]
    have hdrop2 : S.drop (k + p.1) = bitsOfPairs r ++ t := by
      rw [← List.drop_drop, hdrop, bitsOfPairs_cons, List.append_assoc,
        List.drop_append_of_le_length (by rw [natToBits_length]),
        natToBits_drop p.1 p.1 p.2 (le_refl p.1), Nat.sub_self]
      simp [natToBits]
    rw [htake, bitsToNat_natToBits, Nat.mod_eq_of_lt hp,
      ih S (k + p.1) t hdrop2 (fun q hq => hvals q (List.mem_cons_of_mem p hq))]

/-- C1: for every sequence of pairs (n, v) with n in [1,64] and v < 2^n,
    writing the pairs in order on a fresh writer and reading the widths n back
    in order on a fresh reader seeded from the writer's Bytes returns exactly
    the written values (the single-pair case is the singleton sequence). -/
theorem claim_C1_write_read_roundtrip (ps : List (Nat × Nat))
    (hps : ∀ p ∈ ps, 1 ≤ p.1 ∧ p.1 ≤ 64 ∧ p.2 < 2 ^ p.1) :
    (readAll (CreateReader (writeAll CreateWriter ps).Bytes) (ps.map fun p => p.1)).1 =
      ps.map fun p => Except.ok p.2 := by
  have hw : writeAll CreateWriter ps = writerOfBits (bitsOfPairs ps) := by
    have h := writeAll_writerOfBits ps [] (fun p hp => ⟨(hps p hp).1, (hps p hp).2.1⟩)
    rw [writerOfBits_nil, List.nil_append] at h
    exact h
  rw [hw, Bytes_writerOfBits]
  have hB : ∀ b ∈ bitsToBytes (bitsOfPairs ps), b < 256 := bitsToBytes_lt _
  have hbound : 0 + (ps.map fun p => p.1).sum ≤
      8 * (bitsToBytes (bitsOfPairs ps)).length := by
    rw [bitsToBytes_length, ← bitsOfPairs_length]
    omega
  have hread := readAll_spec (bitsToBytes (bitsOfPairs ps)) hB (ps.map fun p => p.1) 0
    (fun n hn => by
      obtain ⟨p, hp, rfl⟩ := List.mem_map.1 hn
      exact ⟨(hps p hp).1, (hps p hp).2.1⟩)
    hbound
  rw [← readerOfBits_zero, hread]
  show streamVals (streamBits (bitsToBytes (bitsOfPairs ps))) 0 (ps.map fun p => p.1)
      = ps.map fun p => Except.ok p.2
  rw [streamBits_bitsToBytes]
  exact streamVals_pairs ps (alignBits (bitsOfPairs ps)) 0
    (List.replicate (padLen (bitsOfPairs ps)) false)
    (by rw [List.drop_zero]; rfl)
    (fun p hp => (hps p hp).2.2)

theorem claim_C1_write_read_roundtrip_witness :
    (∀ p ∈ [((3 : Nat), (5 : Nat)), (7, 65), (11, 1025)],
      1 ≤ p.1 ∧ p.1 ≤ 64 ∧ p.2 < 2 ^ p.1) ∧
    (readAll (CreateReader (writeAll CreateWriter [(3, 5), (7, 65), (11, 1025)]).Bytes)
        ([((3 : Nat), (5 : Nat)), (7, 65), (11, 1025)].map fun p => p.1)).1 =
      [((3 : Nat), (5 : Nat)), (7, 65), (11, 1025)].map fun p => Except.ok p.2 :=
  ⟨by decide, claim_C1_write_read_roundtrip [(3, 5), (7, 65), (11, 1025)] (by decide)⟩

/-- C7: Write errors exactly when num = 0 or num > 64 and then leaves the
    codec untouched; Read 0 returns 0 without error, Read errors for num > 64
    and for an empty buffer, in each case leaving the codec untouched. -/
theorem claim_C7_precondition_errors (c : Codec) (num value : Nat) :
    ((c.Write num value).1.isSome ↔ (num = 0 ∨ num > 64)) ∧
    ((num = 0 ∨ num > 64) → (c.Write num value).2 = c) ∧
    c.Read 0 = (Except.ok 0, c) ∧
    (num > 64 → c.Read num = (Except.error "bit count must be between 1 and 64", c)) ∧
    (1 ≤ num → num ≤ 64 → c.Len = 0 → c.Read num = (Except.error "no more data", c)) := by
  refine ⟨?_, ?_, ?_, ?_, ?_⟩
  · by_cases h : num = 0 ∨ num > 64
    · simp [Codec.Write, h]
    · simp [Codec.Write, h]
      split <;> rfl
  · intro h
    rw [Codec.Write, if_pos h]
  · rw [Codec.Read, if_pos rfl]
  · intro h
    rw [Codec.Read, if_neg (by omega), if_pos h]
  · intro hl hu hlen
    rw [Codec.Read, if_neg (by omega), if_neg (by omega), if_pos hlen]

theorem claim_C7_precondition_errors_witness :
    (((CreateReader [7]).Write 0 5).1.isSome ↔ ((0 : Nat) = 0 ∨ (0 : Nat) > 64)) ∧
    (((0 : Nat) = 0 ∨ (0 : Nat) > 64) → ((CreateReader [7]).Write 0 5).2 = CreateReader [7]) ∧
    (CreateReader [7]).Read 0 = (Except.ok 0, CreateReader [7]) ∧
    ((0 : Nat) > 64 → (CreateReader [7]).Read 0 =
      (Except.error "bit count must be between 1 and 64", CreateReader [7])) ∧
    (1 ≤ 0 → (0 : Nat) ≤ 64 → (CreateReader [7]).Len = 0 →
      (CreateReader [7]).Read 0 = (Except.error "no more data", CreateReader [7])) :=
  claim_C7_precondition_errors (CreateReader [7]) 0 5

/-- C10: whenever Read returns an error the read counter is unchanged, even
    when the failing call has already mutated the buffer and offset. -/
theorem claim_C10_read_counter_on_error (c : Codec) (num : Nat) (e : String)
    (c2 : Codec) (h : c.Read num = (Except.error e, c2)) : c2.NumRead = c.NumRead := by
  simp only [Codec.Read] at h
  split_ifs at h
  all_goals try (split at h)
  all_goals simp only [Prod.mk.injEq] at h
  all_goals try (exact Except.noConfusion h.1)
  all_goals (obtain ⟨-, rfl⟩ := h; rfl)

theorem claim_C10_read_counter_on_error_witness :
    ((CreateReader [255]).Read 3).2.Read 10 =
      (Except.error "unexpected end of data",
        { buff := [], offset := 0, written := 0, read := 3 }) ∧
    ({ buff := [], offset := 0, written := 0, read := 3 } : Codec).NumRead =
      ((CreateReader [255]).Read 3).2.NumRead :=
  ⟨by decide, claim_C10_read_counter_on_error ((CreateReader [255]).Read 3).2 10
    "unexpected end of data" { buff := [], offset := 0, written := 0, read := 3 }
    (by decide)⟩

/-- WOp is one writer-side operation. -/
inductive WOp where
  | write (num value : Nat)
  | writeBytes (data : List Nat)
  | align
  deriving DecidableEq, Repr

/-- WOpOK states that the operation succeeds: a legal bit count for write and
    genuine octets for writeBytes. -/
def WOpOK : WOp → Bool
  | .write n _ => decide (1 ≤ n ∧ n ≤ 64)
  | .writeBytes d => d.all fun b => decide (b < 256)
  | .align => true

/-- runW performs the operations in order, following the state. -/
def runW (c : Codec) : List WOp → Codec
  | [] => c
  | .write n v :: r => runW (c.Write n v).2 r
  | .writeBytes d :: r => runW (c.WriteBytes d).2 r
  | .align :: r => runW c.Align r

/-- bitsOfOps is the bit string serviced by the operations. -/
def bitsOfOps : List Bool → List WOp → List Bool
  | bs, [] => bs
  | bs, .write n v :: r => bitsOfOps (bs ++ natToBits n v) r
  | bs, .writeBytes d :: r => bitsOfOps (bs ++ streamBits d) r
  | bs, .align :: r => bitsOfOps (alignBits bs) r

/-- servicedBits counts the bits serviced by the operations from a starting
    bit count, charging align with the padding of a partial byte. -/
def servicedBits : Nat → List WOp → Nat
  | k, [] => k
  | k, .write n _ :: r => servicedBits (k + n) r
  | k, .writeBytes d :: r => servicedBits (k + 8 * d.length) r
  | k, .align :: r => servicedBits (k + (8 - k % 8) % 8) r

theorem bitsOfOps_length : ∀ (ops : List WOp) (bs : List Bool),
    (bitsOfOps bs ops).length = servicedBits bs.length ops := by
  intro ops
  induction ops with
  | nil => intro bs; rfl
  | cons op r ih =>
    intro bs
    cases op with
    | write n v =>
      rw [bitsOfOps, servicedBits, ih, List.length_append, natToBits_length]
    | writeBytes d =>
      rw [bitsOfOps, servicedBits, ih, List.length_append, streamBits_length]
    | align =>
      rw [bitsOfOps, servicedBits, ih, alignBits_length, padLen]

/-- A successful operation sequence keeps the writer canonical. -/
theorem runW_writerOfBits : ∀ (ops : List WOp) (bs : List Bool),
    (∀ op ∈ ops, WOpOK op = true) →
    runW (writerOfBits bs) ops = writerOfBits (bitsOfOps bs ops) := by
  intro ops
  induction ops with
  | nil => intro bs _; rfl
  | cons op r ih =>
    intro bs hok
    have hop := hok op (List.mem_cons_self op r)
    have hrest := fun q hq => hok q (List.mem_cons_of_mem op hq)
    cases op with
    | write n v =>
      have hn : 1 ≤ n ∧ n ≤ 64 := by
        simpa [WOpOK] using hop
      rw [runW, bitsOfOps, Write_writerOfBits bs n v hn.1 hn.2, ih _ hrest]
    | writeBytes d =>
      have hd : ∀ b ∈ d, b < 256 := by
        simpa [WOpOK, List.all_eq_true] using hop
      rw [runW, bitsOfOps, WriteBytes_writerOfBits bs d hd, ih _ hrest]
    | align =>
      rw [runW, bitsOfOps, Align_writerOfBits, ih _ hrest]

/-- C8: after any successful sequence of Write, WriteBytes and Align calls on
    a fresh writer, the written counter equals the cumulative number of bits
    serviced (align charging the padding of a partial byte), the buffer holds
    at least the ceiling of written/8 octets, and Bytes is exactly the packed
    octets of all serviced bits including the partial tail byte. -/
theorem claim_C8_writer_invariant (ops : List WOp)
    (hok : ∀ op ∈ ops, WOpOK op = true) :
    (runW CreateWriter ops).NumWritten = servicedBits 0 ops ∧
    ((runW CreateWriter ops).NumWritten + 7) / 8 ≤ (runW CreateWriter ops).buff.length ∧
    (runW CreateWriter ops).Bytes = bitsToBytes (bitsOfOps [] ops) := by
  have hrun : runW CreateWriter ops = writerOfBits (bitsOfOps [] ops) := by
    have h := runW_writerOfBits ops [] hok
    rw [writerOfBits_nil] at h
    exact h
  have hlen : (bitsOfOps [] ops).length = servicedBits 0 ops := by
    have h := bitsOfOps_length ops []
    simpa using h
  refine ⟨?_, ?_, ?_⟩
  · rw [hrun]
    show (bitsOfOps [] ops).length = servicedBits 0 ops
    exact hlen
  · rw [hrun]
    show ((bitsOfOps [] ops).length + 7) / 8 ≤ (bitsToBytes (bitsOfOps [] ops)).length
    rw [bitsToBytes_length]
  · rw [hrun, Bytes_writerOfBits]

theorem claim_C8_writer_invariant_witness :
    (∀ op ∈ [WOp.write 1 0, WOp.write 1 0, WOp.writeBytes [0], WOp.align, WOp.write 1 1],
      WOpOK op = true) ∧
    ((runW CreateWriter
        [WOp.write 1 0, WOp.write 1 0, WOp.writeBytes [0], WOp.align,
          WOp.write 1 1]).NumWritten =
      servicedBits 0
        [WOp.write 1 0, WOp.write 1 0, WOp.writeBytes [0], WOp.align, WOp.write 1 1] ∧
    ((runW CreateWriter
        [WOp.write 1 0, WOp.write 1 0, WOp.writeBytes [0], WOp.align,
          WOp.write 1 1]).NumWritten + 7) / 8 ≤
      (runW CreateWriter
        [WOp.write 1 0, WOp.write 1 0, WOp.writeBytes [0], WOp.align,
          WOp.write 1 1]).buff.length ∧
    (runW CreateWriter
        [WOp.write 1 0, WOp.write 1 0, WOp.writeBytes [0], WOp.align,
          WOp.write 1 1]).Bytes =
      bitsToBytes (bitsOfOps []
        [WOp.write 1 0, WOp.write 1 0, WOp.writeBytes [0], WOp.align, WOp.write 1 1])) :=
  ⟨by decide, claim_C8_writer_invariant
    [WOp.write 1 0, WOp.write 1 0, WOp.writeBytes [0], WOp.align, WOp.write 1 1]
    (by decide)⟩

/-- wrap64 reduces an integer to the int64 it denotes (two's complement). -/
def wrap64 (x : Int) : Int := (x + 2 ^ 63) % 2 ^ 64 - 2 ^ 63

/-- toU64 is the Go uint64(x) reinterpretation of an int64 value. -/
def toU64 (x : Int) : Nat := (x % 2 ^ 64).toNat

/-- i64 is the Go int64(x) reinterpretation of a uint64 value. -/
def i64 (x : Nat) : Int := wrap64 x

/-- wrap8 is the Go int8(x) cast of an integer. -/
def wrap8 (x : Int) : Int := (x + 2 ^ 7) % 2 ^ 8 - 2 ^ 7

/-- wrap16 is the Go int16(x) cast of an integer. -/
def wrap16 (x : Int) : Int := (x + 2 ^ 15) % 2 ^ 16 - 2 ^ 15

/-- len64F is bits.Len64 via structural recursion (fuel covers 64 bits). -/
def len64F : Nat → Nat → Nat
  | 0, _ => 0
  | f + 1, v => if v = 0 then 0 else len64F f (v / 2) + 1

/-- bitsLen64 mirrors bits.Len64 for values below 2^64. -/
def bitsLen64 (v : Nat) : Nat := len64F 64 v

/-- Encoder mirrors per.Encoder: the bit codec plus the aligned flag. -/
structure Encoder where
  codec : Codec
  aligned : Bool
  deriving DecidableEq, Repr

/-- Encoder.write mirrors e.codec.Write with Go's in-place mutation rendered
    as state passing; an error aborts the encoder. -/
def Encoder.write (e : Encoder) (num value : Nat) : Except String Encoder :=
  match e.codec.Write num value with
  | (some m, _) => Except.error m
  | (none, c) => Except.ok { e with codec := c }

/-- Encoder.align mirrors e.codec.Align (which never fails). -/
def Encoder.align (e : Encoder) : Encoder := { e with codec := e.codec.Align }

/-- Encoder.writeBytes mirrors e.codec.WriteBytes. -/
def Encoder.writeBytes (e : Encoder) (data : List Nat) : Except String Encoder :=
  match e.codec.WriteBytes data with
  | (some m, _) => Except.error m
  | (none, c) => Except.ok { e with codec := c }

namespace Per

/-- encode.go BitsNonNegativeBinaryInteger. -/
def BitsNonNegativeBinaryInteger (value : Nat) : Nat :=
  if value = 0 then 1 else bitsLen64 value

/-- encode.go OctetsNonNegativeBinaryIntegerLength. -/
def OctetsNonNegativeBinaryIntegerLength (value : Nat) : Nat :=
  (BitsNonNegativeBinaryInteger value + 7) >>> 3

/-- encode.go BitsTwosComplementBinaryInteger; ^value on a negative int64 is
    -value - 1, a non-negative number. -/
def BitsTwosComplementBinaryInteger (value : Int) : Nat :=
  if value = 0 then 1
  else if value > 0 then bitsLen64 (toU64 value) + 1
  else bitsLen64 (toU64 (-value - 1)) + 1

/-- encode.go OctetsTwosComplementBinaryInteger. -/
def OctetsTwosComplementBinaryInteger (value : Int) : Nat :=
  (BitsTwosComplementBinaryInteger value + 7) >>> 3

/-- encode.go CalculateFragmentSize. -/
def CalculateFragmentSize (n : Nat) : Nat :=
  if n ≥ 4 * 16384 then 4 * 16384
  else if n ≥ 3 * 16384 then 3 * 16384
  else if n ≥ 2 * 16384 then 2 * 16384
  else 16384

/-- encode.go EncodeUnconstrainedLength; the uint64 pair result carries the
    pending count. -/
def EncodeUnconstrainedLength (e : Encoder) (n : Nat) : Except String (Nat × Encoder) := do
  let e := if e.aligned then e.align else e
  if n ≤ 127 then
    let e ← e.write 8 n
    return (0, e)
  else if n < 16384 then
    let value := (1 <<< 15) ||| n
    let e ← e.write 16 value
    return (0, e)
  else
    let m := CalculateFragmentSize n
    let k := m / 16384
    let value := (3 <<< 6) ||| k
    let e ← e.write 8 value
    return (n - m, e)

mutual

/-- encode.go EncodeConstrainedWholeNumber; the fuel argument bounds the
    mutual recursion with the length determinant (depth at most two in the
    source) and is never exhausted from the wrappers below. -/
def EncodeConstrainedWholeNumberF : Nat → Encoder → Int → Int → Int → Except String Encoder
  | 0, _, _, _, _ => Except.error "recursion depth exceeded"
  | f + 1, e, lb, ub, n =>
    let vr := wrap64 (ub - lb + 1)
    if vr = 1 then Except.ok e
    else if !e.aligned then
      let bits := BitsNonNegativeBinaryInteger (toU64 (vr - 1))
      let value := toU64 (n - lb)
      e.write bits value
    else
      let value := toU64 (n - lb)
      if vr ≤ 0xFF then
        let bits :=
          if vr = 0x02 then 1
          else if 0x03 ≤ vr ∧ vr ≤ 0x04 then 2
          else if 0x05 ≤ vr ∧ vr ≤ 0x08 then 3
          else if 0x09 ≤ vr ∧ vr ≤ 0x10 then 4
          else if 0x11 ≤ vr ∧ vr ≤ 0x20 then 5
          else if 0x21 ≤ vr ∧ vr ≤ 0x40 then 6
          else if 0x41 ≤ vr ∧ vr ≤ 0x80 then 7
          else if 0x81 ≤ vr ∧ vr ≤ 0xFF then 8
          else 0
        e.write bits value
      else if vr = 0x100 then
        (e.align).write 8 value
      else if 0x101 ≤ vr ∧ vr ≤ 0x10000 then
        (e.align).write 16 value
      else do
        let octets := OctetsNonNegativeBinaryIntegerLength value
        let octets := if octets = 0 then 1 else octets
        let octetsRange := OctetsNonNegativeBinaryIntegerLength (toU64 (ub - lb))
        let (_, e) ← EncodeLengthDeterminantF f e octets (some 1) (some octetsRange)
        let e := e.align
        e.write (octets * 8) value

/-- encode.go EncodeLengthDeterminant. -/
def EncodeLengthDeterminantF : Nat → Encoder → Nat → Option Nat → Option Nat →
    Except String (Nat × Encoder)
  | 0, _, _, _, _ => Except.error "recursion depth exceeded"
  | f + 1, e, n, lbo, ubo =>
    match lbo, ubo with
    | some lb, some ub =>
      if ub < 65536 then do
        let e ← EncodeConstrainedWholeNumberF f e (i64 lb) (i64 ub) (i64 n)
        return (0, e)
      else EncodeUnconstrainedLength e n
    | _, _ => EncodeUnconstrainedLength e n

end

/-- encode.go EncodeConstrainedWholeNumber (fuel instantiated). -/
def EncodeConstrainedWholeNumber (e : Encoder) (lb ub n : Int) : Except String Encoder :=
  EncodeConstrainedWholeNumberF 4 e lb ub n

/-- encode.go EncodeLengthDeterminant (fuel instantiated). -/
def EncodeLengthDeterminant (e : Encoder) (n : Nat) (lbo ubo : Option Nat) :
    Except String (Nat × Encoder) :=
  EncodeLengthDeterminantF 4 e n lbo ubo

/-- encode.go EncodeSemiConstrainedWholeNumber. -/
def EncodeSemiConstrainedWholeNumber (e : Encoder) (lb n : Int) : Except String Encoder := do
  let octets := OctetsNonNegativeBinaryIntegerLength (toU64 (n - lb))
  let octets := if octets = 0 then 1 else octets
  let e := if e.aligned then e.align else e
  let (_, e) ← EncodeLengthDeterminant e octets none none
  e.write (octets * 8) (toU64 (n - lb))

/-- encode.go EncodeUnconstrainedWholeNumber. -/
def EncodeUnconstrainedWholeNumber (e : Encoder) (n : Int) : Except String Encoder := do
  let octets := OctetsTwosComplementBinaryInteger n
  let octets := if octets = 0 then 1 else octets
  let e := if e.aligned then e.align else e
  let (_, e) ← EncodeLengthDeterminant e octets none none
  e.write (octets * 8) (toU64 n)

/-- encode.go EncodeNormallySmallNonNegativeWholeNumber. -/
def EncodeNormallySmallNonNegativeWholeNumber (e : Encoder) (n : Nat) :
    Except String Encoder := do
  if n ≤ 63 then
    let e ← e.write 1 0
    e.write 6 n
  else
    let e ← e.write 1 1
    EncodeSemiConstrainedWholeNumber e 0 (i64 n)

/-- The unextended tail of encode.go EncodeInteger (its bound dispatch). -/
def encodeIntegerBody (e : Encoder) (value : Int) (lbo ubo : Option Int) :
    Except String Encoder :=
  match lbo, ubo with
  | some lb, some ub =>
    if lb = ub then Except.ok e
    else EncodeConstrainedWholeNumber e lb ub value
  | some lb, none => EncodeSemiConstrainedWholeNumber e lb value
  | _, _ => EncodeUnconstrainedWholeNumber e value

/-- encode.go EncodeInteger; the optional bounds are int64 values. -/
def EncodeInteger (e : Encoder) (value : Int) (lbo ubo : Option Int) (extensible : Bool) :
    Except String Encoder := do
  if extensible then
    let extended : Bool :=
      (match lbo with | some lb => decide (value < lb) | none => false) ||
      (match ubo with | some ub => decide (value > ub) | none => false)
    let e ← if extended then e.write 1 1 else e.write 1 0
    if extended then
      EncodeUnconstrainedWholeNumber e value
    else
      encodeIntegerBody e value lbo ubo
  else
    encodeIntegerBody e value lbo ubo


/-- encode.go WriteBits. -/
def WriteBits (e : Encoder) (data : List Nat) (count : Nat) : Except String Encoder := do
  if count = 0 then return e
  else
    let num := count / 8
    let e ← if num > 0 then e.writeBytes (data.take num) else pure e
    let remaining := count % 8
    if remaining > 0 then
      let last := data.getD num 0
      let value := last >>> (8 - remaining)
      e.write remaining value
    else
      return e

/-- The fragmentation loop of encode.go EncodeBitStringFragments; each pass
    services at least one bit, so fuel equal to the bit count is never
    exhausted from the wrapper. -/
def EncodeBitStringFragmentsF : Nat → Encoder → List Nat → Nat → Nat → Option Nat →
    Option Nat → Except String Encoder
  | 0, _, _, _, _, _, _ => Except.error "fragment loop fuel exceeded"
  | f + 1, e, value, offset, count, lbo, ubo =>
    if offset < count then do
      let remaining := count - offset
      let (pending, e) ← EncodeLengthDeterminant e remaining lbo ubo
      let length := if pending = 0 then remaining else remaining - pending
      let nbytes := offset / 8
      let e ← WriteBits e (value.drop nbytes) length
      if pending = 0 then return e
      else EncodeBitStringFragmentsF f e value (offset + length) count lbo ubo
    else return e

/-- encode.go EncodeBitStringFragments. -/
def EncodeBitStringFragments (e : Encoder) (value : List Nat) (count : Nat)
    (lbo ubo : Option Nat) : Except String Encoder := do
  let e := if e.aligned then e.align else e
  if count = 0 then do
    let (_, e) ← EncodeLengthDeterminant e 0 lbo ubo
    return e
  else
    EncodeBitStringFragmentsF count e value 0 count lbo ubo

/-- The fragmentation loop of encode.go EncodeOctetStringFragments. -/
def EncodeOctetStringFragmentsF : Nat → Encoder → List Nat → Nat → Nat → Option Nat →
    Option Nat → Except String Encoder
  | 0, _, _, _, _, _, _ => Except.error "fragment loop fuel exceeded"
  | f + 1, e, value, offset, n, lbo, ubo =>
    if offset < n then do
      let remaining := n - offset
      let (pending, e) ← EncodeLengthDeterminant e remaining lbo ubo
      let length := if pending = 0 then remaining else remaining - pending
      let e ← e.writeBytes ((value.drop offset).take length)
      if pending = 0 then return e
      else EncodeOctetStringFragmentsF f e value (offset + length) n lbo ubo
    else return e

/-- encode.go EncodeOctetStringFragments. -/
def EncodeOctetStringFragments (e : Encoder) (value : List Nat) (lbo ubo : Option Nat) :
    Except String Encoder := do
  let e := if e.aligned then e.align else e
  let n := value.length
  if n = 0 then do
    let (_, e) ← EncodeLengthDeterminant e 0 lbo ubo
    return e
  else
    EncodeOctetStringFragmentsF n e value 0 n lbo ubo

/-- The unextended tail of encode.go EncodeOctetString (17.5 to 17.8). -/
def encodeOctetStringBody (e : Encoder) (value : List Nat) (n : Nat)
    (lbo ubo : Option Nat) : Except String Encoder :=
  if (match ubo with | some ub => decide (ub = 0) | none => false) then Except.ok e
  else if (match lbo, ubo with
      | some lb, some ub => decide (lb = ub ∧ ub ≤ 2)
      | _, _ => false) then
    e.writeBytes value
  else if (match lbo, ubo with
      | some lb, some ub => decide (lb = ub ∧ ub < 65536)
      | _, _ => false) then
    (if e.aligned then e.align else e).writeBytes value
  else
    EncodeOctetStringFragments e value lbo ubo

/-- encode.go EncodeOctetString. -/
def EncodeOctetString (e : Encoder) (value : List Nat) (lbo ubo : Option Nat)
    (extensible : Bool) : Except String Encoder := do
  let n := value.length
  if extensible then
    let extended : Bool :=
      (match lbo with | some lb => decide (n < lb) | none => false) ||
      (match ubo with | some ub => decide (n > ub) | none => false)
    if extended then do
      let e ← e.write 1 1
      EncodeOctetStringFragments e value (some 0) none
    else do
      let e ← e.write 1 0
      encodeOctetStringBody e value n lbo ubo
  else
    encodeOctetStringBody e value n lbo ubo

/-- The sign bit of a float64 bit pattern. -/
def f64sign (b : Nat) : Nat := b >>> 63 &&& 1

/-- The biased exponent of a float64 bit pattern. -/
def f64bexp (b : Nat) : Nat := b >>> 52 &&& 0x7FF

/-- The fraction field of a float64 bit pattern. -/
def f64frac (b : Nat) : Nat := b &&& 0xFFFFFFFFFFFFF

/-- math.IsNaN on the bit pattern. -/
def f64IsNaN (b : Nat) : Bool := decide (f64bexp b = 0x7FF ∧ f64frac b ≠ 0)

/-- math.IsInf(value, 0) on the bit pattern. -/
def f64IsInf (b : Nat) : Bool := decide (f64bexp b = 0x7FF ∧ f64frac b = 0)

/-- math.IsInf(value, 1) on the bit pattern. -/
def f64IsPlusInf (b : Nat) : Bool :=
  decide (f64bexp b = 0x7FF ∧ f64frac b = 0 ∧ f64sign b = 0)

/-- math.IsInf(value, -1) on the bit pattern. -/
def f64IsMinusInf (b : Nat) : Bool :=
  decide (f64bexp b = 0x7FF ∧ f64frac b = 0 ∧ f64sign b = 1)

/-- value == 0.0 on the bit pattern (true for both zeroes). -/
def f64IsZero (b : Nat) : Bool := decide (f64bexp b = 0 ∧ f64frac b = 0)

/-- math.Signbit on the bit pattern. -/
def f64Signbit (b : Nat) : Bool := decide (f64sign b = 1)

/-- The mantissa-normalization loop shared by MakeReal and EncodeReal: halve
    while even, bumping the exponent; 64 iterations always suffice. -/
def oddify : Nat → Int → Int → Int × Int
  | 0, m, ex => (m, ex)
  | f + 1, m, ex => if m ≠ 0 ∧ m % 2 = 0 then oddify f (m / 2) (ex + 1) else (m, ex)

/-- encode.go MakeReal over the float64 bit pattern. -/
def MakeReal (b : Nat) : Int × Int × Nat :=
  if f64IsZero b then (0, 0, 2)
  else
    let sign := f64sign b
    let bexp := f64bexp b
    let frac := f64frac b
    if bexp = 0x7FF then (0, 0, 2)
    else
      let me : Int × Int :=
        if bexp = 0 then ((frac : Int), -1022 - 52)
        else (((1 <<< 52 ||| frac : Nat) : Int), (bexp : Int) - 1023 - 52)
      let mantissa := if sign = 1 then -me.1 else me.1
      let r := oddify 64 mantissa me.2
      (r.1, r.2, 2)

/-- encode.go EncodeReal over the float64 bit pattern.  MakeReal always
    returns base 2, so the dead base-10 rescaling branch of the source is
    omitted. -/
def EncodeReal (e : Encoder) (b : Nat) : Except String Encoder := do
  if f64IsNaN b || f64IsInf b || (f64IsZero b && f64Signbit b) then
    let e := if e.aligned then e.align else e
    let e ← e.write 8 1
    let octet : Nat :=
      if f64IsNaN b then 0x42
      else if f64IsPlusInf b then 0x40
      else if f64IsMinusInf b then 0x41
      else 0x43
    e.write 8 octet
  else if f64IsZero b then
    let e := if e.aligned then e.align else e
    e.write 8 0
  else
    let mr := MakeReal b
    let exponent0 := mr.2.1
    let sm : Int × Int := if mr.1 < 0 then (-1, -mr.1) else (1, mr.1)
    let r := oddify 64 sm.2 exponent0
    let mantissa := r.1
    let exponent := r.2
    let temp := CreateWriter
    let temp := (temp.Write 1 1).2
    let temp := (if sm.1 < 0 then temp.Write 1 1 else temp.Write 1 0).2
    let temp := (temp.Write 2 0).2
    let temp := (temp.Write 2 0).2
    let length := OctetsTwosComplementBinaryInteger exponent
    let temp := (if length > 3 then temp.Write 2 3 else temp.Write 2 (length - 1)).2
    let temp :=
      if length = 1 then (temp.Write 8 (toU64 (wrap8 exponent))).2
      else if length = 2 then (temp.Write 16 (toU64 (wrap16 exponent))).2
      else if length = 3 then
        (temp.Write 24 (toU64 (if exponent < 0 then 2 ^ 24 + exponent else exponent))).2
      else
        let temp := (temp.Write 8 length).2
        (temp.Write (length * 8)
          (toU64 (if exponent < 0 then 2 ^ (length * 8) + exponent else exponent))).2
    let temp :=
      if mantissa > 0 then
        let mlen := (bitsLen64 (toU64 mantissa) + 7) / 8
        (temp.Write (mlen * 8) (toU64 mantissa)).2
      else temp
    EncodeOctetString e temp.Bytes none none false

end Per

example :
    (Per.EncodeConstrainedWholeNumber { codec := CreateWriter, aligned := true } 0 65536 0).map
        (fun e => e.codec.Bytes) = Except.ok [0, 0] := by decide

example :
    (Per.EncodeReal { codec := CreateWriter, aligned := true } 0x3FF0000000000000).map
        (fun e => e.codec.Bytes) = Except.ok [3, 0x80, 0, 1] := by decide

example :
    (Per.EncodeReal { codec := CreateWriter, aligned := true } 0x8000000000000000).map
        (fun e => e.codec.Bytes) = Except.ok [1, 0x43] := by decide

example :
    (Per.EncodeReal { codec := CreateWriter, aligned := true } 0).map
        (fun e => e.codec.Bytes) = Except.ok [0] := by decide

namespace PerEarly

/-- decode.go BitsNonNegativeBinaryInteger. -/
def BitsNonNegativeBinaryInteger (value : Nat) : Nat :=
  if value = 0 then 1 else bitsLen64 value

/-- decode.go OctetsNonNegativeBinaryIntegerLength. -/
def OctetsNonNegativeBinaryIntegerLength (value : Nat) : Nat :=
  (BitsNonNegativeBinaryInteger value + 7) >>> 3

/-- decode.go BitsTwosComplementBinaryInteger; the negative case takes
    bits.Len64(uint64(-value)) with no sign-bit correction. -/
def BitsTwosComplementBinaryInteger (value : Int) : Nat :=
  if value = 0 then 1
  else if value > 0 then bitsLen64 (toU64 value) + 1
  else bitsLen64 (toU64 (-value))

/-- decode.go OctetsTwosComplementBinaryIntegerLength. -/
def OctetsTwosComplementBinaryIntegerLength (value : Int) : Nat :=
  (BitsTwosComplementBinaryInteger value + 7) >>> 3

/-- decode.go CalculateFragmentSize. -/
def CalculateFragmentSize (n : Nat) : Nat :=
  if n ≥ 4 * 16384 then 4 * 16384
  else if n ≥ 3 * 16384 then 3 * 16384
  else if n ≥ 2 * 16384 then 2 * 16384
  else 16384

/-- decode.go EncodeUnconstrainedLength. -/
def EncodeUnconstrainedLength (e : Encoder) (n : Nat) : Except String (Nat × Encoder) := do
  let e := if e.aligned then e.align else e
  if n ≤ 127 then
    let e ← e.write 8 n
    return (0, e)
  else if n < 16384 then
    let value := (1 <<< 15) ||| n
    let e ← e.write 16 value
    return (0, e)
  else
    let m := CalculateFragmentSize n
    let k := m / 16384
    let value := (3 <<< 6) ||| k
    let e ← e.write 8 value
    return (n - m, e)

mutual

/-- decode.go EncodeConstrainedWholeNumber (the earlier variant): the
    unaligned bit count comes from the range itself rather than range - 1, and
    the range-over-64K case falls through to the unconstrained whole number;
    the fuel bounds the recursion through the length determinant. -/
def EncodeConstrainedWholeNumberF : Nat → Encoder → Int → Int → Int → Except String Encoder
  | 0, _, _, _, _ => Except.error "recursion depth exceeded"
  | f + 1, e, lb, ub, n =>
    let vr := wrap64 (ub - lb + 1)
    if vr = 1 then Except.ok e
    else if !e.aligned then
      let bits := BitsNonNegativeBinaryInteger (toU64 vr)
      let value := toU64 (n - lb)
      e.write bits value
    else
      let value := toU64 (n - lb)
      if vr ≤ 0xFF then
        let bits :=
          if vr = 0x02 then 1
          else if 0x03 ≤ vr ∧ vr ≤ 0x04 then 2
          else if 0x05 ≤ vr ∧ vr ≤ 0x08 then 3
          else if 0x09 ≤ vr ∧ vr ≤ 0x10 then 4
          else if 0x11 ≤ vr ∧ vr ≤ 0x20 then 5
          else if 0x21 ≤ vr ∧ vr ≤ 0x40 then 6
          else if 0x41 ≤ vr ∧ vr ≤ 0x80 then 7
          else if 0x81 ≤ vr ∧ vr ≤ 0xFF then 8
          else 0
        e.write bits value
      else if vr = 0x100 then
        (e.align).write 8 value
      else if 0x101 ≤ vr ∧ vr ≤ 0x10000 then
        (e.align).write 16 value
      else
        EncodeUnconstrainedWholeNumberF f e (i64 value)

/-- decode.go EncodeUnconstrainedWholeNumber (the earlier variant): aligns
    unconditionally. -/
def EncodeUnconstrainedWholeNumberF : Nat → Encoder → Int → Except String Encoder
  | 0, _, _ => Except.error "recursion depth exceeded"
  | f + 1, e, n => do
    let octets := OctetsTwosComplementBinaryIntegerLength n
    let octets := if octets = 0 then 1 else octets
    let e := e.align
    let (_, e) ← EncodeLengthDeterminantF f e octets none none
    e.write (octets * 8) (toU64 n)

/-- decode.go EncodeLengthDeterminant (the earlier variant): the constrained
    test is on the uint64 range ub - lb + 1 rather than on ub alone. -/
def EncodeLengthDeterminantF : Nat → Encoder → Nat → Option Nat → Option Nat →
    Except String (Nat × Encoder)
  | 0, _, _, _, _ => Except.error "recursion depth exceeded"
  | f + 1, e, n, lbo, ubo =>
    match lbo, ubo with
    | some lb, some ub =>
      if (ub + 2 ^ 64 - lb + 1) % 2 ^ 64 < 65536 then do
        let e ← EncodeConstrainedWholeNumberF f e (i64 lb) (i64 ub) (i64 n)
        return (0, e)
      else EncodeUnconstrainedLength e n
    | _, _ => EncodeUnconstrainedLength e n

end

/-- decode.go EncodeConstrainedWholeNumber (fuel instantiated). -/
def EncodeConstrainedWholeNumber (e : Encoder) (lb ub n : Int) : Except String Encoder :=
  EncodeConstrainedWholeNumberF 4 e lb ub n

/-- decode.go EncodeLengthDeterminant (fuel instantiated). -/
def EncodeLengthDeterminant (e : Encoder) (n : Nat) (lbo ubo : Option Nat) :
    Except String (Nat × Encoder) :=
  EncodeLengthDeterminantF 4 e n lbo ubo

/-- decode.go EncodeUnconstrainedWholeNumber (fuel instantiated). -/
def EncodeUnconstrainedWholeNumber (e : Encoder) (n : Int) : Except String Encoder :=
  EncodeUnconstrainedWholeNumberF 4 e n

/-- decode.go EncodeSemiConstrainedWholeNumber (the earlier variant): aligns
    unconditionally. -/
def EncodeSemiConstrainedWholeNumber (e : Encoder) (lb n : Int) : Except String Encoder := do
  let octets := OctetsNonNegativeBinaryIntegerLength (toU64 (n - lb))
  let octets := if octets = 0 then 1 else octets
  let e := e.align
  let (_, e) ← EncodeLengthDeterminant e octets none none
  e.write (octets * 8) (toU64 (n - lb))

/-- decode.go EncodeNormallySmallNonNegativeWholeNumber (the earlier variant):
    the small branch calls Write(0, 1) with the arguments transposed. -/
def EncodeNormallySmallNonNegativeWholeNumber (e : Encoder) (n : Nat) :
    Except String Encoder := do
  if n ≤ 63 then
    let e ← e.write 0 1
    e.write 6 n
  else
    let e ← e.write 1 1
    EncodeSemiConstrainedWholeNumber e 0 (i64 n)

/-- The unextended tail of decode.go EncodeInteger: a bounded range above
    65536 routes to the semi-constrained whole number. -/
def encodeIntegerBody (e : Encoder) (value : Int) (lbo ubo : Option Int) :
    Except String Encoder :=
  match lbo, ubo with
  | some lb, some ub =>
    if lb = ub then Except.ok e
    else
      let bound := toU64 (ub - lb + 1)
      if bound > 65536 then EncodeSemiConstrainedWholeNumber e lb value
      else EncodeConstrainedWholeNumber e lb ub value
  | some lb, none => EncodeSemiConstrainedWholeNumber e lb value
  | _, _ => EncodeUnconstrainedWholeNumber e value

/-- decode.go EncodeInteger (the earlier variant). -/
def EncodeInteger (e : Encoder) (value : Int) (lbo ubo : Option Int) (extensible : Bool) :
    Except String Encoder := do
  if extensible then
    let extended : Bool :=
      (match lbo with | some lb => decide (value < lb) | none => false) ||
      (match ubo with | some ub => decide (value > ub) | none => false)
    let e ← if extended then e.write 1 1 else e.write 1 0
    if extended then
      EncodeUnconstrainedWholeNumber e value
    else
      encodeIntegerBody e value lbo ubo
  else
    encodeIntegerBody e value lbo ubo

end PerEarly

example :
    (PerEarly.EncodeInteger { codec := CreateWriter, aligned := true } 0 (some 0)
        (some 65536) false).map (fun e => e.codec.Bytes) = Except.ok [1, 0] := by decide

example :
    (Per.EncodeInteger { codec := CreateWriter, aligned := true } 0 (some 0)
        (some 65536) false).map (fun e => e.codec.Bytes) = Except.ok [0, 0] := by decide

example :
    PerEarly.EncodeNormallySmallNonNegativeWholeNumber
        { codec := CreateWriter, aligned := true } 0 =
      Except.error "bit count must be between 1 and 64" := by decide

theorem wrap64_eq_self (x : Int) (hlo : -(2 ^ 63) ≤ x) (hhi : x < 2 ^ 63) :
    wrap64 x = x := by
  rw [wrap64, Int.emod_eq_of_lt (by omega) (by omega)]
  omega

theorem toU64_eq_toNat (x : Int) (hlo : 0 ≤ x) (hhi : x < 2 ^ 64) :
    toU64 x = x.toNat := by
  rw [toU64, Int.emod_eq_of_lt hlo hhi]

theorem toU64_ofNat (n : Nat) (h : n < 2 ^ 64) : toU64 (n : Int) = n := by
  rw [toU64_eq_toNat _ (by omega) (by exact_mod_cast h), Int.toNat_ofNat]

theorem i64_eq_self (n : Nat) (h : n < 2 ^ 63) : i64 n = n := by
  rw [i64, wrap64_eq_self _ (by omega) (by exact_mod_cast h)]

theorem len64F_le : ∀ f v, len64F f v ≤ f := by
  intro f
  induction f with
  | zero => intro v; rw [len64F]
  | succ g ih =>
    intro v
    rw [len64F]
    rcases eq_or_ne v 0 with rfl | hv
    · rw [if_pos rfl]
      omega
    · rw [if_neg hv]
      have := ih (v / 2)
      omega

theorem len64F_pos : ∀ f v, 1 ≤ v → 1 ≤ f → 1 ≤ len64F f v := by
  intro f v h1 hf
  obtain ⟨g, rfl⟩ : ∃ g, f = g + 1 := ⟨f - 1, by omega⟩
  rw [len64F, if_neg (by omega)]
  omega

theorem bitsLen64_le (v : Nat) : bitsLen64 v ≤ 64 := len64F_le 64 v

theorem BitsNonNegativeBinaryInteger_pos (v : Nat) :
    1 ≤ Per.BitsNonNegativeBinaryInteger v := by
  rw [Per.BitsNonNegativeBinaryInteger]
  rcases eq_or_ne v 0 with rfl | hv
  · rw [if_pos rfl]
  · rw [if_neg hv]
    exact len64F_pos 64 v (by omega) (by omega)

theorem BitsNonNegativeBinaryInteger_le (v : Nat) :
    Per.BitsNonNegativeBinaryInteger v ≤ 64 := by
  rw [Per.BitsNonNegativeBinaryInteger]
  rcases eq_or_ne v 0 with rfl | hv
  · rw [if_pos rfl]
    omega
  · rw [if_neg hv]
    exact bitsLen64_le v

theorem OctetsNonNegativeBinaryIntegerLength_pos (v : Nat) :
    1 ≤ Per.OctetsNonNegativeBinaryIntegerLength v := by
  rw [Per.OctetsNonNegativeBinaryIntegerLength, Nat.shiftRight_eq_div_pow]
  have := BitsNonNegativeBinaryInteger_pos v
  omega

theorem OctetsNonNegativeBinaryIntegerLength_le (v : Nat) :
    Per.OctetsNonNegativeBinaryIntegerLength v ≤ 8 := by
  rw [Per.OctetsNonNegativeBinaryIntegerLength, Nat.shiftRight_eq_div_pow]
  have := BitsNonNegativeBinaryInteger_le v
  omega

/-- Encoder.write on a canonical writer appends the field bits. -/
theorem write_writerOfBits (bs : List Bool) (al : Bool) (num value : Nat)
    (h1 : 1 ≤ num) (h64 : num ≤ 64) :
    Encoder.write { codec := writerOfBits bs, aligned := al } num value =
      Except.ok { codec := writerOfBits (bs ++ natToBits num value), aligned := al } := by
  rw [Encoder.write]
  simp only
  rw [Write_writerOfBits bs num value h1 h64]

/-- Encoder.align on a canonical writer pads to the octet boundary. -/
theorem align_writerOfBits (bs : List Bool) (al : Bool) :
    Encoder.align { codec := writerOfBits bs, aligned := al } =
      { codec := writerOfBits (alignBits bs), aligned := al } := by
  rw [Encoder.align]
  simp only
  rw [Align_writerOfBits]

/-- Encoder.writeBytes on a canonical writer appends the octet bits. -/
theorem writeBytes_writerOfBits (bs : List Bool) (al : Bool) (data : List Nat)
    (hdat : ∀ b ∈ data, b < 256) :
    Encoder.writeBytes { codec := writerOfBits bs, aligned := al } data =
      Except.ok { codec := writerOfBits (bs ++ streamBits data), aligned := al } := by
  rw [Encoder.writeBytes]
  simp only
  rw [WriteBytes_writerOfBits bs data hdat]

/-- A constrained whole number with range at most 64K never recurses, so one
    unit of fuel is as good as any. -/
theorem ECWNF_small_fuel (k : Nat) (e : Encoder) (lb ub n : Int)
    (h : wrap64 (ub - lb + 1) ≤ 0x10000) :
    Per.EncodeConstrainedWholeNumberF (k + 1) e lb ub n =
      Per.EncodeConstrainedWholeNumberF (0 + 1) e lb ub n := by
  simp only [Per.EncodeConstrainedWholeNumberF]
  by_cases h1 : wrap64 (ub - lb + 1) = 1
  · rw [if_pos h1, if_pos h1]
  · rw [if_neg h1, if_neg h1]
    by_cases h2 : (!e.aligned) = true
    · rw [if_pos h2, if_pos h2]
    · rw [if_neg h2, if_neg h2]
      by_cases h3 : wrap64 (ub - lb + 1) ≤ 0xFF
      · rw [if_pos h3, if_pos h3]
      · rw [if_neg h3, if_neg h3]
        by_cases h4 : wrap64 (ub - lb + 1) = 0x100
        · rw [if_pos h4, if_pos h4]
        · rw [if_neg h4, if_neg h4]
          by_cases h5 : 0x101 ≤ wrap64 (ub - lb + 1) ∧ wrap64 (ub - lb + 1) ≤ 0x10000
          · rw [if_pos h5, if_pos h5]
          · exfalso
            omega

theorem ELDF_fuel (f g : Nat) (hf : 2 ≤ f) (hg : 2 ≤ g) (e : Encoder) (n lb ub : Nat)
    (hub : ub < 65536)
    (hsmall : wrap64 (i64 ub - i64 lb + 1) ≤ 0x10000) :
    Per.EncodeLengthDeterminantF f e n (some lb) (some ub) =
      Per.EncodeLengthDeterminantF g e n (some lb) (some ub) := by
  obtain ⟨x, rfl⟩ : ∃ x, f = x + 1 := ⟨f - 1, by omega⟩
  obtain ⟨y, rfl⟩ : ∃ y, g = y + 1 := ⟨g - 1, by omega⟩
  obtain ⟨a, rfl⟩ : ∃ a, x = a + 1 := ⟨x - 1, by omega⟩
  obtain ⟨b, rfl⟩ : ∃ b, y = b + 1 := ⟨y - 1, by omega⟩
  simp only [Per.EncodeLengthDeterminantF]
  rw [if_pos hub, if_pos hub,
    ECWNF_small_fuel a e (i64 lb) (i64 ub) (i64 n) hsmall,
    ECWNF_small_fuel b e (i64 lb) (i64 ub) (i64 n) hsmall]

/-- The fuel of the constrained whole number encoder is irrelevant from three
    steps up: the longest call chain is through the length determinant of the
    indefinite case into a small constrained whole number. -/
theorem ECWNF_fuel (f g : Nat) (hf : 3 ≤ f) (hg : 3 ≤ g) (e : Encoder) (lb ub n : Int) :
    Per.EncodeConstrainedWholeNumberF f e lb ub n =
      Per.EncodeConstrainedWholeNumberF g e lb ub n := by
  obtain ⟨x, rfl⟩ : ∃ x, f = x + 1 := ⟨f - 1, by omega⟩
  obtain ⟨y, rfl⟩ : ∃ y, g = y + 1 := ⟨g - 1, by omega⟩
  simp only [Per.EncodeConstrainedWholeNumberF]
  by_cases h1 : wrap64 (ub - lb + 1) = 1
  · rw [if_pos h1, if_pos h1]
  · rw [if_neg h1, if_neg h1]
    by_cases h2 : (!e.aligned) = true
    · rw [if_pos h2, if_pos h2]
    · rw [if_neg h2, if_neg h2]
      by_cases h3 : wrap64 (ub - lb + 1) ≤ 0xFF
      · rw [if_pos h3, if_pos h3]
      · rw [if_neg h3, if_neg h3]
        by_cases h4 : wrap64 (ub - lb + 1) = 0x100
        · rw [if_pos h4, if_pos h4]
        · rw [if_neg h4, if_neg h4]
          by_cases h5 : 0x101 ≤ wrap64 (ub - lb + 1) ∧ wrap64 (ub - lb + 1) ≤ 0x10000
          · rw [if_pos h5, if_pos h5]
          · rw [if_neg h5, if_neg h5]
            have hle := OctetsNonNegativeBinaryIntegerLength_le (toU64 (ub - lb))
            have heq : Per.EncodeLengthDeterminantF x e
                (if Per.OctetsNonNegativeBinaryIntegerLength (toU64 (n - lb)) = 0 then 1
                  else Per.OctetsNonNegativeBinaryIntegerLength (toU64 (n - lb)))
                (some 1)
                (some (Per.OctetsNonNegativeBinaryIntegerLength (toU64 (ub - lb)))) =
              Per.EncodeLengthDeterminantF y e
                (if Per.OctetsNonNegativeBinaryIntegerLength (toU64 (n - lb)) = 0 then 1
                  else Per.OctetsNonNegativeBinaryIntegerLength (toU64 (n - lb)))
                (some 1)
                (some (Per.OctetsNonNegativeBinaryIntegerLength (toU64 (ub - lb)))) := by
              apply ELDF_fuel x y (by omega) (by omega)
              · omega
              · have hq : i64 (Per.OctetsNonNegativeBinaryIntegerLength (toU64 (ub - lb))) =
                    (Per.OctetsNonNegativeBinaryIntegerLength (toU64 (ub - lb)) : Int) :=
                  i64_eq_self _ (by omega)
                have h1i : i64 1 = (1 : Int) := i64_eq_self 1 (by norm_num)
                rw [hq, h1i]
                have he : ((Per.OctetsNonNegativeBinaryIntegerLength (toU64 (ub - lb)) : Int)
                    - 1 + 1) =
                    (Per.OctetsNonNegativeBinaryIntegerLength (toU64 (ub - lb)) : Int) := by
                  ring
                rw [he, wrap64_eq_self _ (by omega) (by
                  have : Per.OctetsNonNegativeBinaryIntegerLength (toU64 (ub - lb)) < 2 ^ 63 := by
                    omega
                  exact_mod_cast this)]
                have : Per.OctetsNonNegativeBinaryIntegerLength (toU64 (ub - lb)) ≤ 0x10000 := by
                  omega
                exact_mod_cast this
            rw [heq]

theorem alignBits_idem (bs : List Bool) : alignBits (alignBits bs) = alignBits bs :=
  alignBits_of_mod _ (alignBits_length_mod bs)

/-- The conditional alignment prologue shared by the aligned-variant encoder
    procedures, on a canonical writer. -/
theorem alignIf_writerOfBits (bs : List Bool) (al : Bool) :
    (if al = true
      then Encoder.align { codec := writerOfBits bs, aligned := al }
      else { codec := writerOfBits bs, aligned := al }) =
    { codec := writerOfBits (if al = true then alignBits bs else bs), aligned := al } := by
  cases al
  · simp
  · simp [align_writerOfBits]

theorem ELD_none (e : Encoder) (n : Nat) :
    Per.EncodeLengthDeterminant e n none none = Per.EncodeUnconstrainedLength e n := rfl

/-- The one-octet form of the unconstrained length on a canonical writer. -/
theorem EUL_writerOfBits_small (bs : List Bool) (al : Bool) (n : Nat) (hn : n ≤ 127) :
    Per.EncodeUnconstrainedLength { codec := writerOfBits bs, aligned := al } n =
      Except.ok (0, { codec := writerOfBits ((if al = true then alignBits bs else bs) ++
        natToBits 8 n), aligned := al }) := by
  simp only [Per.EncodeUnconstrainedLength, alignIf_writerOfBits, if_pos hn,
    write_writerOfBits _ al 8 n (by norm_num) (by norm_num), bind, Except.bind, pure,
    Except.pure]

/-- The two-octet form of the unconstrained length on a canonical writer. -/
theorem EUL_writerOfBits_mid (bs : List Bool) (al : Bool) (n : Nat) (h1 : ¬n ≤ 127)
    (h2 : n < 16384) :
    Per.EncodeUnconstrainedLength { codec := writerOfBits bs, aligned := al } n =
      Except.ok (0, { codec := writerOfBits ((if al = true then alignBits bs else bs) ++
        natToBits 16 ((1 <<< 15) ||| n)), aligned := al }) := by
  simp only [Per.EncodeUnconstrainedLength, alignIf_writerOfBits, if_neg h1, if_pos h2,
    write_writerOfBits _ al 16 ((1 <<< 15) ||| n) (by norm_num) (by norm_num), bind,
    Except.bind, pure, Except.pure]

/-- The fragment-count form of the unconstrained length on a canonical writer. -/
theorem EUL_writerOfBits_big (bs : List Bool) (al : Bool) (n : Nat) (h1 : ¬n ≤ 127)
    (h2 : ¬n < 16384) :
    Per.EncodeUnconstrainedLength { codec := writerOfBits bs, aligned := al } n =
      Except.ok (n - Per.CalculateFragmentSize n,
        { codec := writerOfBits ((if al = true then alignBits bs else bs) ++
          natToBits 8 ((3 <<< 6) ||| (Per.CalculateFragmentSize n / 16384))),
          aligned := al }) := by
  simp only [Per.EncodeUnconstrainedLength, alignIf_writerOfBits, if_neg h1, if_neg h2,
    write_writerOfBits _ al 8 ((3 <<< 6) ||| (Per.CalculateFragmentSize n / 16384))
      (by norm_num) (by norm_num), bind, Except.bind, pure, Except.pure]

/-- C9: the aligned encoding of an empty octet string and of an empty bit
    string with no bounds is not empty: after alignment exactly the single
    zero length octet is emitted. -/
theorem claim_C9_empty_string_zero_length (bs : List Bool) :
    Per.EncodeOctetStringFragments { codec := writerOfBits bs, aligned := true } [] none none =
      Except.ok { codec := writerOfBits (alignBits bs ++ natToBits 8 0), aligned := true } ∧
    Per.EncodeBitStringFragments { codec := writerOfBits bs, aligned := true } [] 0 none none =
      Except.ok { codec := writerOfBits (alignBits bs ++ natToBits 8 0), aligned := true } := by
  have ha : (if True then Encoder.align { codec := writerOfBits bs, aligned := true }
      else { codec := writerOfBits bs, aligned := true }) =
      { codec := writerOfBits (alignBits bs), aligned := true } := by
    rw [if_pos trivial, align_writerOfBits]
  constructor
  · simp only [Per.EncodeOctetStringFragments, List.length_nil]
    rw [ha, if_pos trivial, ELD_none,
      EUL_writerOfBits_small (alignBits bs) true 0 (by norm_num), if_pos rfl, alignBits_idem]
    rfl
  · simp only [Per.EncodeBitStringFragments]
    rw [ha, if_pos trivial, ELD_none,
      EUL_writerOfBits_small (alignBits bs) true 0 (by norm_num), if_pos rfl, alignBits_idem]
    rfl

theorem claim_C9_empty_string_zero_length_witness :
    Per.EncodeOctetStringFragments { codec := writerOfBits [], aligned := true } [] none none =
      Except.ok { codec := writerOfBits (alignBits [] ++ natToBits 8 0), aligned := true } ∧
    Per.EncodeBitStringFragments { codec := writerOfBits [], aligned := true } [] 0 none none =
      Except.ok { codec := writerOfBits (alignBits [] ++ natToBits 8 0), aligned := true } :=
  claim_C9_empty_string_zero_length []

theorem write_zero_error (e : Encoder) (v : Nat) :
    e.write 0 v = Except.error "bit count must be between 1 and 64" := by
  rw [Encoder.write]
  simp [Codec.Write]

/-- C4: for n up to 63 the later variant emits one 0 bit and n in a 6-bit
    field, while the earlier variant calls Write with its arguments transposed
    and fails with the bit-count error instead of succeeding. -/
theorem claim_C4_normally_small_number (bs : List Bool) (al : Bool) (n : Nat)
    (h : n ≤ 63) :
    (Per.EncodeNormallySmallNonNegativeWholeNumber
        { codec := writerOfBits bs, aligned := al } n =
      Except.ok { codec := writerOfBits (bs ++ natToBits 1 0 ++ natToBits 6 n),
                  aligned := al }) ∧
    PerEarly.EncodeNormallySmallNonNegativeWholeNumber
        { codec := writerOfBits bs, aligned := al } n =
      Except.error "bit count must be between 1 and 64" := by
  constructor
  · simp only [Per.EncodeNormallySmallNonNegativeWholeNumber, if_pos h,
      write_writerOfBits bs al 1 0 (by norm_num) (by norm_num), bind, Except.bind]
    rw [write_writerOfBits (bs ++ natToBits 1 0) al 6 n (by norm_num) (by norm_num)]
  · simp only [PerEarly.EncodeNormallySmallNonNegativeWholeNumber, if_pos h,
      write_zero_error, bind, Except.bind]

theorem claim_C4_normally_small_number_witness :
    (0 : Nat) ≤ 63 ∧
    ((Per.EncodeNormallySmallNonNegativeWholeNumber
        { codec := writerOfBits [], aligned := true } 0 =
      Except.ok { codec := writerOfBits (([] : List Bool) ++ natToBits 1 0 ++ natToBits 6 0),
                  aligned := true }) ∧
    PerEarly.EncodeNormallySmallNonNegativeWholeNumber
        { codec := writerOfBits [], aligned := true } 0 =
      Except.error "bit count must be between 1 and 64") :=
  ⟨by decide, claim_C4_normally_small_number [] true 0 (by decide)⟩

/-- C3: with both bounds and ub below 64K the length determinant is the
    constrained whole number encoding of n with pending 0; otherwise, after
    aligning in the aligned variant, it is one octet n for n up to 127, the
    16-bit value (1<<15)|n below 16384, and for larger n the single octet
    (3<<6)|k with k the largest of 1..4 such that k*16384 is at most n,
    returning pending n - k*16384. -/
theorem claim_C3_length_determinant (bs : List Bool) (al : Bool) (n : Nat) :
    (∀ lb ub : Nat, ub < 65536 →
      Per.EncodeLengthDeterminant { codec := writerOfBits bs, aligned := al } n
          (some lb) (some ub) =
        (Per.EncodeConstrainedWholeNumber { codec := writerOfBits bs, aligned := al }
            (i64 lb) (i64 ub) (i64 n)).map fun e2 => ((0 : Nat), e2)) ∧
    (∀ lbo ubo : Option Nat,
      lbo = none ∨ ubo = none ∨ (∃ u, ubo = some u ∧ 65536 ≤ u) →
      (n ≤ 127 →
        Per.EncodeLengthDeterminant { codec := writerOfBits bs, aligned := al } n lbo ubo =
          Except.ok (0, { codec := writerOfBits ((if al = true then alignBits bs else bs) ++
            natToBits 8 n), aligned := al })) ∧
      (128 ≤ n → n < 16384 →
        Per.EncodeLengthDeterminant { codec := writerOfBits bs, aligned := al } n lbo ubo =
          Except.ok (0, { codec := writerOfBits ((if al = true then alignBits bs else bs) ++
            natToBits 16 ((1 <<< 15) ||| n)), aligned := al })) ∧
      (16384 ≤ n →
        Per.EncodeLengthDeterminant { codec := writerOfBits bs, aligned := al } n lbo ubo =
          Except.ok (n - min (n / 16384) 4 * 16384,
            { codec := writerOfBits ((if al = true then alignBits bs else bs) ++
              natToBits 8 ((3 <<< 6) ||| min (n / 16384) 4)), aligned := al }))) := by
  constructor
  · intro lb ub hub
    rw [Per.EncodeLengthDeterminant, show (4 : Nat) = 3 + 1 from rfl]
    simp only [Per.EncodeLengthDeterminantF]
    rw [if_pos hub,
      ECWNF_fuel 3 4 (by norm_num) (by norm_num) { codec := writerOfBits bs, aligned := al }
        (i64 lb) (i64 ub) (i64 n),
      Per.EncodeConstrainedWholeNumber]
    cases hE : Per.EncodeConstrainedWholeNumberF 4
        { codec := writerOfBits bs, aligned := al } (i64 lb) (i64 ub) (i64 n) with
    | error m => rfl
    | ok e2 => rfl
  · intro lbo ubo hcase
    have hEUL : Per.EncodeLengthDeterminant { codec := writerOfBits bs, aligned := al }
        n lbo ubo =
        Per.EncodeUnconstrainedLength { codec := writerOfBits bs, aligned := al } n := by
      rcases hcase with rfl | h | ⟨u, rfl, hu⟩
      · cases ubo <;> rfl
      · subst h
        cases lbo <;> rfl
      · cases lbo with
        | none => rfl
        | some l =>
          rw [Per.EncodeLengthDeterminant, show (4 : Nat) = 3 + 1 from rfl]
          simp only [Per.EncodeLengthDeterminantF]
          rw [if_neg (by omega)]
    refine ⟨?_, ?_, ?_⟩
    · intro h127
      rw [hEUL, EUL_writerOfBits_small bs al n h127]
    · intro h128 h16k
      rw [hEUL, EUL_writerOfBits_mid bs al n (by omega) h16k]
    · intro h16k
      rw [hEUL, EUL_writerOfBits_big bs al n (by omega) (by omega)]
      have hm : Per.CalculateFragmentSize n = min (n / 16384) 4 * 16384 := by
        rw [Per.CalculateFragmentSize]
        split_ifs <;> omega
      have hk : Per.CalculateFragmentSize n / 16384 = min (n / 16384) 4 := by
        rw [hm]
        omega
      rw [hk, hm]

theorem claim_C3_length_determinant_witness :
    ((65 : Nat) < 65536 ∧
      Per.EncodeLengthDeterminant { codec := writerOfBits [], aligned := true } 5
          (some 0) (some 65) =
        (Per.EncodeConstrainedWholeNumber { codec := writerOfBits [], aligned := true }
            (i64 0) (i64 65) (i64 5)).map fun e2 => ((0 : Nat), e2)) ∧
    ((5 : Nat) ≤ 127 ∧
      Per.EncodeLengthDeterminant { codec := writerOfBits [], aligned := true } 5
          none none =
        Except.ok (0, { codec := writerOfBits ((if true = true then alignBits [] else []) ++
          natToBits 8 5), aligned := true })) :=
  ⟨⟨by decide, (claim_C3_length_determinant [] true 5).1 0 65 (by decide)⟩,
    ⟨by decide, ((claim_C3_length_determinant [] true 5).2 none none (Or.inl rfl)).1
      (by decide)⟩⟩

/-- C5 (amended): with both bounds present, distinct, and a range beyond 64K,
    the earlier EncodeInteger routes to the semi-constrained whole number
    while the later EncodeInteger routes to the constrained whole number (the
    indefinite length case); the two paths do not produce the same bits. -/
theorem claim_C5_encode_integer_variants (e : Encoder) (v lb ub : Int)
    (hne : lb ≠ ub) (hbig : toU64 (ub - lb + 1) > 65536) :
    PerEarly.EncodeInteger e v (some lb) (some ub) false =
      PerEarly.EncodeSemiConstrainedWholeNumber e lb v ∧
    Per.EncodeInteger e v (some lb) (some ub) false =
      Per.EncodeConstrainedWholeNumber e lb ub v := by
  constructor
  · rw [PerEarly.EncodeInteger]
    simp only [Bool.false_eq_true, if_false, PerEarly.encodeIntegerBody]
    rw [if_neg hne, if_pos hbig]
  · rw [Per.EncodeInteger]
    simp only [Bool.false_eq_true, if_false, Per.encodeIntegerBody]
    rw [if_neg hne]

/-- C5, the divergence witness: at (value, lb, ub) = (0, 0, 65536) in the
    aligned variant the later variant emits the octets 00 00 while the earlier
    variant emits 01 00. -/
theorem claim_C5_encode_integer_variants_counterexample :
    (Per.EncodeInteger { codec := CreateWriter, aligned := true } 0 (some 0) (some 65536)
        false).map (fun e => e.codec.Bytes) = Except.ok [0, 0] ∧
    (PerEarly.EncodeInteger { codec := CreateWriter, aligned := true } 0 (some 0)
        (some 65536) false).map (fun e => e.codec.Bytes) = Except.ok [1, 0] ∧
    (0 : Int) ≤ 0 ∧ (0 : Int) ≤ 65536 ∧ (65536 : Int) - 0 + 1 > 65536 := by decide

theorem claim_C5_encode_integer_variants_witness :
    ((0 : Int) ≠ 65536 ∧ toU64 (65536 - 0 + 1) > 65536) ∧
    (PerEarly.EncodeInteger { codec := CreateWriter, aligned := true } 0 (some 0)
        (some 65536) false =
      PerEarly.EncodeSemiConstrainedWholeNumber { codec := CreateWriter, aligned := true }
        0 0 ∧
    Per.EncodeInteger { codec := CreateWriter, aligned := true } 0 (some 0) (some 65536)
        false =
      Per.EncodeConstrainedWholeNumber { codec := CreateWriter, aligned := true }
        0 65536 0) :=
  ⟨⟨by decide, by decide⟩,
    claim_C5_encode_integer_variants { codec := CreateWriter, aligned := true } 0 0 65536
      (by decide) (by decide)⟩

theorem EncodeReal_special (bs : List Bool) (b octet : Nat)
    (hcond : (Per.f64IsNaN b || Per.f64IsInf b ||
      (Per.f64IsZero b && Per.f64Signbit b)) = true)
    (hoct : (if Per.f64IsNaN b then (0x42 : Nat) else if Per.f64IsPlusInf b then 0x40
      else if Per.f64IsMinusInf b then 0x41 else 0x43) = octet) :
    Per.EncodeReal { codec := writerOfBits bs, aligned := true } b =
      Except.ok { codec := writerOfBits (alignBits bs ++ natToBits 8 1 ++ natToBits 8 octet),
                  aligned := true } := by
  simp only [Per.EncodeReal]
  rw [hcond, if_pos rfl]
  rw [if_pos trivial, align_writerOfBits,
    write_writerOfBits (alignBits bs) true 8 1 (by norm_num) (by norm_num)]
  simp only [bind, Except.bind]
  rw [hoct, write_writerOfBits (alignBits bs ++ natToBits 8 1) true 8 octet
    (by norm_num) (by norm_num)]

theorem EncodeReal_pluszero (bs : List Bool) (b : Nat)
    (hcond : (Per.f64IsNaN b || Per.f64IsInf b ||
      (Per.f64IsZero b && Per.f64Signbit b)) = false)
    (hz : Per.f64IsZero b = true) :
    Per.EncodeReal { codec := writerOfBits bs, aligned := true } b =
      Except.ok { codec := writerOfBits (alignBits bs ++ natToBits 8 0),
                  aligned := true } := by
  simp only [Per.EncodeReal]
  rw [hcond, if_neg Bool.false_ne_true, hz, if_pos rfl, if_pos trivial, align_writerOfBits,
    write_writerOfBits (alignBits bs) true 8 0 (by norm_num) (by norm_num)]

/-- An unbounded octet string of one to 127 octets on an aligned canonical
    writer: align, one length octet, then the octets. -/
theorem EOS_none_writerOfBits (bs : List Bool) (value : List Nat)
    (hval : ∀ b ∈ value, b < 256) (h1 : 1 ≤ value.length) (h2 : value.length ≤ 127) :
    Per.EncodeOctetString { codec := writerOfBits bs, aligned := true } value
        none none false =
      Except.ok { codec := writerOfBits (alignBits bs ++ natToBits 8 value.length ++
        streamBits value), aligned := true } := by
  obtain ⟨f, hf⟩ : ∃ f, value.length = f + 1 := ⟨value.length - 1, by omega⟩
  show Per.EncodeOctetStringFragments { codec := writerOfBits bs, aligned := true }
    value none none = _
  simp only [Per.EncodeOctetStringFragments]
  rw [if_pos trivial, align_writerOfBits, hf, if_neg (by omega : ¬f + 1 = 0)]
  simp only [Per.EncodeOctetStringFragmentsF]
  rw [if_pos (by omega : (0 : Nat) < f + 1), Nat.sub_zero, ELD_none,
    EUL_writerOfBits_small (alignBits bs) true (f + 1) (by omega), if_pos rfl,
    alignBits_idem]
  simp only [bind, Except.bind, if_true, List.drop_zero]
  rw [List.take_of_length_le (by omega : value.length ≤ f + 1),
    writeBytes_writerOfBits (alignBits bs ++ natToBits 8 (f + 1)) true value hval]
  simp only [pure, Except.pure, List.append_assoc, if_true]

/-- C6: EncodeReal in the aligned variant, after aligning, emits the single
    zero length octet for plus zero; a length octet 1 and content octet 0x40,
    0x41, 0x42 or 0x43 for plus infinity, minus infinity, NaN and minus zero;
    and for 1.0 a length determinant of 3 followed by the octets 0x80
    (binary, positive, base 2, no scaling, one exponent octet), 0x00 and
    0x01. -/
theorem claim_C6_encode_real (bs : List Bool) :
    Per.EncodeReal { codec := writerOfBits bs, aligned := true } 0 =
      Except.ok { codec := writerOfBits (alignBits bs ++ natToBits 8 0),
                  aligned := true } ∧
    Per.EncodeReal { codec := writerOfBits bs, aligned := true } 0x7FF0000000000000 =
      Except.ok { codec := writerOfBits (alignBits bs ++ natToBits 8 1 ++ natToBits 8 0x40),
                  aligned := true } ∧
    Per.EncodeReal { codec := writerOfBits bs, aligned := true } 0xFFF0000000000000 =
      Except.ok { codec := writerOfBits (alignBits bs ++ natToBits 8 1 ++ natToBits 8 0x41),
                  aligned := true } ∧
    Per.EncodeReal { codec := writerOfBits bs, aligned := true } 0x7FF8000000000000 =
      Except.ok { codec := writerOfBits (alignBits bs ++ natToBits 8 1 ++ natToBits 8 0x42),
                  aligned := true } ∧
    Per.EncodeReal { codec := writerOfBits bs, aligned := true } 0x8000000000000000 =
      Except.ok { codec := writerOfBits (alignBits bs ++ natToBits 8 1 ++ natToBits 8 0x43),
                  aligned := true } ∧
    Per.EncodeReal { codec := writerOfBits bs, aligned := true } 0x3FF0000000000000 =
      Except.ok { codec := writerOfBits (alignBits bs ++ natToBits 8 3 ++ natToBits 8 0x80 ++
        natToBits 8 0 ++ natToBits 8 1), aligned := true } := by
  refine ⟨?_, ?_, ?_, ?_, ?_, ?_⟩
  · exact EncodeReal_pluszero bs 0 (by decide) (by decide)
  · exact EncodeReal_special bs _ _ (by decide) (by decide)
  · exact EncodeReal_special bs _ _ (by decide) (by decide)
  · exact EncodeReal_special bs _ _ (by decide) (by decide)
  · exact EncodeReal_special bs _ _ (by decide) (by decide)
  · have hred : Per.EncodeReal { codec := writerOfBits bs, aligned := true }
        0x3FF0000000000000 =
        Per.EncodeOctetString { codec := writerOfBits bs, aligned := true } [0x80, 0, 1]
          none none false := by
      simp only [Per.EncodeReal]
      rw [show (Per.f64IsNaN 0x3FF0000000000000 || Per.f64IsInf 0x3FF0000000000000 ||
          (Per.f64IsZero 0x3FF0000000000000 && Per.f64Signbit 0x3FF0000000000000)) = false
          from by decide,
        if_neg Bool.false_ne_true,
        show Per.f64IsZero 0x3FF0000000000000 = false from by decide,
        if_neg Bool.false_ne_true]
      rfl
    rw [hred, EOS_none_writerOfBits bs [0x80, 0, 1] (by decide) (by decide) (by decide)]
    simp only [streamBits_cons, streamBits_nil, byteBits, List.append_nil,
      List.append_assoc, List.length_cons, List.length_nil]

/-- C2: the constrained whole number encoder emits no bits for range 1; the
    offset in the minimal bit count for the range in the unaligned variant;
    and in the aligned variant the offset in the table-sized bit-field with no
    alignment for ranges up to 255, one aligned octet for range 256, two
    aligned octets for ranges up to 64K, and beyond 64K a constrained length
    determinant with lower bound 1 and upper bound octets(ub-lb) carrying
    octs = max 1 octets(n-lb), then alignment and the offset in 8*octs bits. -/
theorem claim_C2_constrained_whole_number (bs : List Bool) (al : Bool) (lb ub n : Int)
    (hln : lb ≤ n) (hnu : n ≤ ub) (hlo : -(2 ^ 63) ≤ lb) (hhi : ub < 2 ^ 63)
    (hr : ub - lb + 1 < 2 ^ 63) :
    Per.EncodeConstrainedWholeNumber { codec := writerOfBits bs, aligned := al } lb ub n =
      Except.ok { codec := writerOfBits (
        if ub - lb + 1 = 1 then bs
        else if al = false then
          bs ++ natToBits (Per.BitsNonNegativeBinaryInteger (ub - lb).toNat) (n - lb).toNat
        else if ub - lb + 1 ≤ 255 then
          bs ++ natToBits
            (if ub - lb + 1 = 2 then 1
             else if ub - lb + 1 ≤ 4 then 2
             else if ub - lb + 1 ≤ 8 then 3
             else if ub - lb + 1 ≤ 16 then 4
             else if ub - lb + 1 ≤ 32 then 5
             else if ub - lb + 1 ≤ 64 then 6
             else if ub - lb + 1 ≤ 128 then 7
             else 8) (n - lb).toNat
        else if ub - lb + 1 = 256 then alignBits bs ++ natToBits 8 (n - lb).toNat
        else if ub - lb + 1 ≤ 65536 then alignBits bs ++ natToBits 16 (n - lb).toNat
        else
          alignBits (bs ++
            (if Per.OctetsNonNegativeBinaryIntegerLength (ub - lb).toNat = 1 then []
             else natToBits
               (if Per.OctetsNonNegativeBinaryIntegerLength (ub - lb).toNat = 2 then 1
                else if Per.OctetsNonNegativeBinaryIntegerLength (ub - lb).toNat ≤ 4 then 2
                else 3)
               (max 1 (Per.OctetsNonNegativeBinaryIntegerLength (n - lb).toNat) - 1))) ++
          natToBits (8 * max 1 (Per.OctetsNonNegativeBinaryIntegerLength (n - lb).toNat))
            (n - lb).toNat), aligned := al } := by
  have hvr : wrap64 (ub - lb + 1) = ub - lb + 1 := wrap64_eq_self _ (by omega) (by omega)
  have hval : toU64 (n - lb) = (n - lb).toNat := toU64_eq_toNat _ (by omega) (by omega)
  have hub2 : toU64 (ub - lb) = (ub - lb).toNat := toU64_eq_toNat _ (by omega) (by omega)
  have hvm1 : ub - lb + 1 - 1 = ub - lb := by ring
  rw [Per.EncodeConstrainedWholeNumber, show (4 : Nat) = 3 + 1 from rfl]
  simp only [Per.EncodeConstrainedWholeNumberF]
  rw [hvr, hval]
  by_cases h1 : ub - lb + 1 = 1
  · rw [if_pos h1, if_pos h1]
  · rw [if_neg h1, if_neg h1]
    cases al with
    | false =>
      rw [if_pos (show (!false) = true from rfl), if_pos (show false = false from rfl),
        hvm1, hub2,
        write_writerOfBits bs false (Per.BitsNonNegativeBinaryInteger (ub - lb).toNat)
          (n - lb).toNat (BitsNonNegativeBinaryInteger_pos _)
          (BitsNonNegativeBinaryInteger_le _)]
    | true =>
      rw [if_neg (by decide : ¬(!true) = true), if_neg (by decide : ¬true = false)]
      by_cases h2 : ub - lb + 1 ≤ 255
      · rw [if_pos h2, if_pos h2]
        have htable :
            (if ub - lb + 1 = 2 then (1 : Nat)
             else if 3 ≤ ub - lb + 1 ∧ ub - lb + 1 ≤ 4 then 2
             else if 5 ≤ ub - lb + 1 ∧ ub - lb + 1 ≤ 8 then 3
             else if 9 ≤ ub - lb + 1 ∧ ub - lb + 1 ≤ 16 then 4
             else if 17 ≤ ub - lb + 1 ∧ ub - lb + 1 ≤ 32 then 5
             else if 33 ≤ ub - lb + 1 ∧ ub - lb + 1 ≤ 64 then 6
             else if 65 ≤ ub - lb + 1 ∧ ub - lb + 1 ≤ 128 then 7
             else if 129 ≤ ub - lb + 1 ∧ ub - lb + 1 ≤ 255 then 8
             else 0) =
            (if ub - lb + 1 = 2 then (1 : Nat)
             else if ub - lb + 1 ≤ 4 then 2
             else if ub - lb + 1 ≤ 8 then 3
             else if ub - lb + 1 ≤ 16 then 4
             else if ub - lb + 1 ≤ 32 then 5
             else if ub - lb + 1 ≤ 64 then 6
             else if ub - lb + 1 ≤ 128 then 7
             else 8) := by
          split_ifs <;> omega
        rw [htable,
          write_writerOfBits bs true _ (n - lb).toNat
            (by split_ifs <;> norm_num) (by split_ifs <;> norm_num)]
      · rw [if_neg h2, if_neg h2]
        by_cases h3 : ub - lb + 1 = 256
        · rw [if_pos h3, if_pos h3, align_writerOfBits,
            write_writerOfBits (alignBits bs) true 8 (n - lb).toNat (by norm_num)
              (by norm_num)]
        · rw [if_neg h3, if_neg h3]
          by_cases h4 : 257 ≤ ub - lb + 1 ∧ ub - lb + 1 ≤ 65536
          · rw [if_pos h4, if_pos (by omega : ub - lb + 1 ≤ 65536), align_writerOfBits,
              write_writerOfBits (alignBits bs) true 16 (n - lb).toNat (by norm_num)
                (by norm_num)]
          · rw [if_neg h4, if_neg (by omega : ¬ub - lb + 1 ≤ 65536), hub2]
            have hop := OctetsNonNegativeBinaryIntegerLength_pos (n - lb).toNat
            have hol := OctetsNonNegativeBinaryIntegerLength_le (n - lb).toNat
            have hqp := OctetsNonNegativeBinaryIntegerLength_pos (ub - lb).toNat
            have hql := OctetsNonNegativeBinaryIntegerLength_le (ub - lb).toNat
            rw [if_neg (by omega :
              ¬Per.OctetsNonNegativeBinaryIntegerLength (n - lb).toNat = 0)]
            have hmax : max 1 (Per.OctetsNonNegativeBinaryIntegerLength (n - lb).toNat) =
                Per.OctetsNonNegativeBinaryIntegerLength (n - lb).toNat :=
              Nat.max_eq_right hop
            rw [hmax]
            have hELD : Per.EncodeLengthDeterminantF 3
                { codec := writerOfBits bs, aligned := true }
                (Per.OctetsNonNegativeBinaryIntegerLength (n - lb).toNat) (some 1)
                (some (Per.OctetsNonNegativeBinaryIntegerLength (ub - lb).toNat)) =
                Except.ok (0,
                  { codec := writerOfBits (bs ++
                      (if Per.OctetsNonNegativeBinaryIntegerLength (ub - lb).toNat = 1
                          then []
                       else natToBits
                         (if Per.OctetsNonNegativeBinaryIntegerLength (ub - lb).toNat = 2
                            then 1
                          else if Per.OctetsNonNegativeBinaryIntegerLength
                              (ub - lb).toNat ≤ 4
                            then 2
                          else 3)
                         (Per.OctetsNonNegativeBinaryIntegerLength (n - lb).toNat - 1))),
                    aligned := true }) := by
              rw [show (3 : Nat) = 2 + 1 from rfl]
              simp only [Per.EncodeLengthDeterminantF]
              rw [if_pos (by omega), show (2 : Nat) = 1 + 1 from rfl]
              simp only [Per.EncodeConstrainedWholeNumberF]
              rw [i64_eq_self _ (by omega), i64_eq_self 1 (by norm_num),
                i64_eq_self _ (by omega), Nat.cast_one]
              have hvq : wrap64
                  ((Per.OctetsNonNegativeBinaryIntegerLength (ub - lb).toNat : Int) - 1 + 1) =
                  (Per.OctetsNonNegativeBinaryIntegerLength (ub - lb).toNat : Int) := by
                rw [show ((Per.OctetsNonNegativeBinaryIntegerLength (ub - lb).toNat : Int)
                    - 1 + 1) =
                    (Per.OctetsNonNegativeBinaryIntegerLength (ub - lb).toNat : Int) from
                    by ring]
                exact wrap64_eq_self _ (by omega) (by exact_mod_cast (by omega :
                  Per.OctetsNonNegativeBinaryIntegerLength (ub - lb).toNat < 2 ^ 63))
              rw [hvq]
              have hvalo : toU64 ((Per.OctetsNonNegativeBinaryIntegerLength
                  (n - lb).toNat : Int) - 1) =
                  Per.OctetsNonNegativeBinaryIntegerLength (n - lb).toNat - 1 := by
                rw [toU64_eq_toNat _ (by omega) (by omega)]
                omega
              by_cases hq1 : Per.OctetsNonNegativeBinaryIntegerLength (ub - lb).toNat = 1
              · rw [if_pos (by exact_mod_cast hq1), if_pos hq1, List.append_nil]
                rfl
              · rw [if_neg (by
                    intro hc
                    exact hq1 (by exact_mod_cast hc)), if_neg hq1,
                  if_neg (by decide : ¬(!true) = true),
                  if_pos (by
                    have : ((Per.OctetsNonNegativeBinaryIntegerLength
                      (ub - lb).toNat : Int)) ≤ 255 := by exact_mod_cast (by omega :
                        Per.OctetsNonNegativeBinaryIntegerLength (ub - lb).toNat ≤ 255)
                    exact this), hvalo]
                have htab2 :
                    (if (Per.OctetsNonNegativeBinaryIntegerLength (ub - lb).toNat : Int) = 2
                       then (1 : Nat)
                     else if 3 ≤ (Per.OctetsNonNegativeBinaryIntegerLength
                         (ub - lb).toNat : Int) ∧
                         (Per.OctetsNonNegativeBinaryIntegerLength (ub - lb).toNat : Int) ≤ 4
                       then 2
                     else if 5 ≤ (Per.OctetsNonNegativeBinaryIntegerLength
                         (ub - lb).toNat : Int) ∧
                         (Per.OctetsNonNegativeBinaryIntegerLength (ub - lb).toNat : Int) ≤ 8
                       then 3
                     else if 9 ≤ (Per.OctetsNonNegativeBinaryIntegerLength
                         (ub - lb).toNat : Int) ∧
                         (Per.OctetsNonNegativeBinaryIntegerLength (ub - lb).toNat : Int) ≤ 16
                       then 4
                     else if 17 ≤ (Per.OctetsNonNegativeBinaryIntegerLength
                         (ub - lb).toNat : Int) ∧
                         (Per.OctetsNonNegativeBinaryIntegerLength (ub - lb).toNat : Int) ≤ 32
                       then 5
                     else if 33 ≤ (Per.OctetsNonNegativeBinaryIntegerLength
                         (ub - lb).toNat : Int) ∧
                         (Per.OctetsNonNegativeBinaryIntegerLength (ub - lb).toNat : Int) ≤ 64
                       then 6
                     else if 65 ≤ (Per.OctetsNonNegativeBinaryIntegerLength
                         (ub - lb).toNat : Int) ∧
                         (Per.OctetsNonNegativeBinaryIntegerLength (ub - lb).toNat : Int) ≤ 128
                       then 7
                     else if 129 ≤ (Per.OctetsNonNegativeBinaryIntegerLength
                         (ub - lb).toNat : Int) ∧
                         (Per.OctetsNonNegativeBinaryIntegerLength (ub - lb).toNat : Int) ≤ 255
                       then 8
                     else 0) =
                    (if Per.OctetsNonNegativeBinaryIntegerLength (ub - lb).toNat = 2 then 1
                     else if Per.OctetsNonNegativeBinaryIntegerLength (ub - lb).toNat ≤ 4
                       then 2
                     else 3) := by
                  split_ifs <;> omega
                rw [htab2,
                  write_writerOfBits bs true _
                    (Per.OctetsNonNegativeBinaryIntegerLength (n - lb).toNat - 1)
                    (by split_ifs <;> norm_num) (by split_ifs <;> norm_num)]
                rfl
            rw [hELD]
            simp only [bind, Except.bind]
            rw [align_writerOfBits,
              write_writerOfBits _ true
                (Per.OctetsNonNegativeBinaryIntegerLength (n - lb).toNat * 8)
                (n - lb).toNat (by omega) (by omega),
              show Per.OctetsNonNegativeBinaryIntegerLength (n - lb).toNat * 8 =
                8 * Per.OctetsNonNegativeBinaryIntegerLength (n - lb).toNat from by ring]

theorem claim_C2_constrained_whole_number_witness :
    ((0 : Int) ≤ 1 ∧ (1 : Int) ≤ 65536 ∧ -(2 ^ 63) ≤ (0 : Int) ∧ (65536 : Int) < 2 ^ 63 ∧
      (65536 : Int) - 0 + 1 < 2 ^ 63) ∧
    (Per.EncodeConstrainedWholeNumber { codec := writerOfBits [], aligned := true }
        0 65536 1).map (fun e2 => e2.codec.Bytes) = Except.ok [0, 1] :=
  ⟨⟨by norm_num, by norm_num, by norm_num, by norm_num, by norm_num⟩, by
    have h := claim_C2_constrained_whole_number [] true 0 65536 1 (by norm_num)
      (by norm_num) (by norm_num) (by norm_num) (by norm_num)
    rw [h]
    decide⟩

end Asn1cGo
